import Mathlib

/-!
Verification of the yays YAML sorter core (src/main.go) via a shallow
embedding in Lean 4.

The embedding models the path-addressed tree transformation engine:
the `yaml.Node` document tree, the path parser (`parsePathSteps`),
the tree resolver (`resolveTargets`), the key ranker (`rankSortType`),
the node sorters (`sortMappingNodeKeys`, `sortSequenceByFirstField`)
and the orchestrator (`SortYaml`).

Modelling decisions, stated once here:
* A `yaml.Node` mapping's flat even-length `Content` list is modelled as a
  list of key/value pairs `List (Node × Node)`; the yaml decoder guarantees
  evenness.  Keys are full nodes (YAML allows non-scalar keys); the Go code
  only ever reads a key node's `Value` field, modelled by `Node.value`
  (empty string for non-scalars, as in go-yaml).
* Go pointer mutation of resolved targets is modelled by tree positions
  (`Pos`, a list of child indices) plus functional update (`modifyAt`).
  `resolvePN` is the position-instrumented resolver; it is proved to
  project onto the direct node-level embedding `resolveTargets`.
* `sort.SliceStable(less)` computes the unique stable sort of the slice
  for the strict comparison `less`; it is modelled by the structural
  stable insertion sort `insertionSortB le` with `le a b = !less b a`,
  which is proved stable and sorted below.
* Go byte-wise string comparison `<` equals code-point lexicographic
  comparison on valid UTF-8; it is modelled by `goStrLt` on `List Char`.
* `strconv.Atoi` is modelled by `atoi` including the 64-bit `int` range
  check (Go `int` is 64 bits on all platforms this tool targets).
* Go's `%q` format verb is modelled as plain double-quoting (no inner
  escaping); the claims only concern ASCII path texts.
* `strings.TrimSpace` trims Unicode white space; `goIsSpace` models the
  Latin-1 subset Go lists explicitly, which covers every claim input.
-/

/-- Node kinds of gopkg.in/yaml.v3: DocumentNode, SequenceNode, MappingNode,
ScalarNode (alias nodes are out of scope, as in the spec). A mapping holds
ordered key/value pairs; a document wraps its content list. -/
inductive Node where
  | scalar (value : String)
  | mapping (pairs : List (Node × Node))
  | sequence (elems : List Node)
  | document (content : List Node)
deriving Repr

/-- The `Value` field of a yaml.Node: the literal text for scalars, empty
for all other kinds. -/
def Node.value : Node → String
  | .scalar v => v
  | _ => ""

/-- Numeric values of the yaml.Kind constants, as printed by `%d` in the
error messages: DocumentNode=1, SequenceNode=2, MappingNode=4, ScalarNode=8. -/
def Node.kindNum : Node → Nat
  | .document _ => 1
  | .sequence _ => 2
  | .mapping _ => 4
  | .scalar _ => 8

/-- pathStep from src/main.go: kinds stepKey, stepIndex, stepAll.
The index is an `Int` because `strconv.Atoi` accepts signed integers. -/
inductive pathStep where
  | stepKey (key : String)
  | stepIndex (index : Int)
  | stepAll
deriving Repr, DecidableEq

/-- White-space test for `strings.TrimSpace` (Latin-1 subset of
`unicode.IsSpace`; exotic Unicode space classes are out of scope). -/
def goIsSpace (c : Char) : Bool :=
  c = ' ' ∨ c = '\t' ∨ c = '\n' ∨ c = '\x0b' ∨ c = '\x0c' ∨ c = '\r' ∨
  c = '\u0085' ∨ c = ' '

/-- `strings.TrimSpace` on the character list. -/
def trimSpace (s : List Char) : List Char :=
  ((s.dropWhile goIsSpace).reverse.dropWhile goIsSpace).reverse

/-- `strings.Split(p, ".")`: split on dots, keeping empty tokens. -/
def splitOnDot : List Char → List (List Char)
  | [] => [[]]
  | '.' :: rest => [] :: splitOnDot rest
  | c :: rest =>
    match splitOnDot rest with
    | t :: ts => (c :: t) :: ts
    | [] => [[c]]

/-- Digit-string accumulator used by `atoi`; `none` on any non-digit. -/
def digitsToNatAux (acc : Nat) : List Char → Option Nat
  | [] => some acc
  | c :: cs => if c.isDigit then digitsToNatAux (acc * 10 + (c.toNat - 48)) cs else none

/-- `strconv.Atoi`: optional single sign, then one or more ASCII digits,
value within the 64-bit `int` range; `none` on any other input. -/
def atoi (s : List Char) : Option Int :=
  match s with
  | [] => none
  | '+' :: rest =>
    match rest, digitsToNatAux 0 rest with
    | _ :: _, some m => if m ≤ 9223372036854775807 then some (Int.ofNat m) else none
    | _, _ => none
  | '-' :: rest =>
    match rest, digitsToNatAux 0 rest with
    | _ :: _, some m => if m ≤ 9223372036854775808 then some (-(Int.ofNat m)) else none
    | _, _ => none
  | _ =>
    match digitsToNatAux 0 s with
    | some m => if m ≤ 9223372036854775807 then some (Int.ofNat m) else none
    | none => none

/-- Index of the first `[` in a token (`strings.Index(part, "[")`). -/
def firstLBracketIdx : List Char → Option Nat
  | [] => none
  | '[' :: _ => some 0
  | _ :: rest => (firstLBracketIdx rest).map (· + 1)

/-- Shared bracket-selector logic of both bracket branches of
`parsePathSteps`: `*` gives stepAll, an Atoi-parseable integer gives
stepIndex, anything else is the parse error naming the content. -/
def bracketSel (inside : List Char) : Except String (List pathStep) :=
  if inside = ['*'] then .ok [.stepAll]
  else
    match atoi inside with
    | some n => .ok [.stepIndex n]
    | none => .error ("invalid bracket selection \"" ++ inside.asString ++ "\"")

/-- Body of one iteration of the token loop of `parsePathSteps`, applied
to the already-trimmed token: skip if empty, else a bracket-only token, a
`name[sel]` token, or a plain key token, in that order (mirroring the Go
branch order). -/
def parseTokenCore (part : List Char) : Except String (List pathStep) :=
  if part = [] then .ok []
  else if part.head? = some '[' ∧ part.getLast? = some ']' then
    bracketSel (trimSpace ((part.drop 1).dropLast))
  else
    match firstLBracketIdx part with
    | some lb =>
      if part.getLast? = some ']' then
        (bracketSel (trimSpace ((part.drop (lb + 1)).dropLast))).map
          ((if part.take lb = [] then [] else [pathStep.stepKey (part.take lb).asString]) ++ ·)
      else .ok [.stepKey part.asString]
    | none => .ok [.stepKey part.asString]

/-- One iteration of the token loop: trim, then process. -/
def parseToken (part0 : List Char) : Except String (List pathStep) :=
  parseTokenCore (trimSpace part0)

/-- The token loop of `parsePathSteps`: concatenate the steps of each
token; the first token error aborts the parse. -/
def parseTokens : List (List Char) → Except String (List pathStep)
  | [] => .ok []
  | part :: rest =>
    match parseToken part with
    | .error e => .error e
    | .ok ss => (parseTokens rest).map (ss ++ ·)

/-- parsePathSteps from src/main.go. -/
def parsePathSteps (path : String) : Except String (List pathStep) :=
  let p := trimSpace path.toList
  if p = [] ∨ p = ['.'] then .ok []
  else parseTokens (splitOnDot p)

/-- stepsContainLoop from src/main.go: does the step list contain stepAll? -/
def stepsContainLoop (steps : List pathStep) : Bool :=
  steps.any fun s => match s with | .stepAll => true | _ => false

/-- First value in the mapping's pair list whose key node's Value equals
the looked-up key (the linear scan of the stepKey case). -/
def findValue (key : String) : List (Node × Node) → Option Node
  | [] => none
  | (k, v) :: rest => if k.value = key then some v else findValue key rest

/-- Expansion of one working-set node under one step, mirroring the three
step cases of `resolveTargets` (key descent, bounds-checked index descent,
wildcard fan-out), including the exact error strings. -/
def stepOne (st : pathStep) (n : Node) : Except String (List Node) :=
  match st with
  | .stepKey key =>
    match n with
    | .mapping ps =>
      match findValue key ps with
      | some v => .ok [v]
      | none => .error ("key \"" ++ key ++ "\" not found in mapping")
    | _ =>
      .error ("cannot descend into node kind=" ++ toString n.kindNum ++
        " at token \"" ++ key ++ "\"")
  | .stepIndex idx =>
    match n with
    | .sequence es =>
      if idx < 0 ∨ (es.length : Int) ≤ idx then
        .error ("index " ++ toString idx ++ " out of range [0," ++
          toString es.length ++ ")")
      else .ok [es.getD idx.toNat (.scalar "")]
    | _ =>
      .error ("expected numeric index into sequence, got index " ++
        toString idx ++ " with kind=" ++ toString n.kindNum)
  | .stepAll =>
    match n with
    | .sequence es => .ok es
    | .mapping ps => .ok (ps.map (·.2))
    | _ =>
      .error ("selection [*] requires a sequence or mapping target (got kind=" ++
        toString n.kindNum ++ ")")

/-- One step applied across the whole working set, first error aborting,
expansions concatenated in working-set order. -/
def resolveStep (st : pathStep) : List Node → Except String (List Node)
  | [] => .ok []
  | n :: rest =>
    match stepOne st n with
    | .error e => .error e
    | .ok xs => (resolveStep st rest).map (xs ++ ·)

/-- The step loop of `resolveTargets`. -/
def resolveSteps : List Node → List pathStep → Except String (List Node)
  | cur, [] => .ok cur
  | cur, st :: rest =>
    match resolveStep st cur with
    | .error e => .error e
    | .ok next => resolveSteps next rest

/-- The initial unwrap of `resolveTargets`: a document node with nonempty
content starts at its first content child, anything else at itself. -/
def startNode : Node → Node
  | .document (c :: _) => c
  | n => n

/-- resolveTargets from src/main.go. -/
def resolveTargets (root : Node) (steps : List pathStep) : Except String (List Node) :=
  resolveSteps [startNode root] steps

/-- Go byte-wise string `<` as code-point lexicographic comparison
(equal on valid UTF-8). -/
def charListLt : List Char → List Char → Bool
  | [], [] => false
  | [], _ :: _ => true
  | _ :: _, [] => false
  | a :: as, b :: bs => if a < b then true else if b < a then false else charListLt as bs

/-- Go `a < b` on strings. -/
def goStrLt (a b : String) : Bool := charListLt a.toList b.toList

/-- Stable insertion sort: the model of `sort.SliceStable` (see header). -/
def insertionSortB (le : α → α → Bool) : List α → List α
  | [] => []
  | a :: as => insertB le a (insertionSortB le as)
where
  /-- Insert `a` before the first element it is `le`-related to. -/
  insertB (le : α → α → Bool) (a : α) : List α → List α
  | [] => [a]
  | b :: bs => if le a b then a :: b :: bs else b :: insertB le a bs

/-- CLI (only the fields the modeled core reads). -/
structure CLI where
  yamlPaths : List String
  sortType : String

/-- The fixed priority list of Human mode. -/
def humanCommonOrder : List String :=
  ["apiVersion", "kind", "metadata", "name", "namespace", "labels",
   "annotations", "id", "version"]

/-- First-match index scan of the Human-mode loop of `rankSortType`. -/
def findIndexOf (key : String) : List String → Option Nat
  | [] => none
  | k :: rest => if key = k then some 0 else (findIndexOf key rest).map (· + 1)

/-- rankSortType from src/main.go. -/
def rankSortType (cli : CLI) (key : String) : Nat :=
  match cli.sortType with
  | "alphanumeric" => humanCommonOrder.length + 1
  | "human" =>
    match findIndexOf key humanCommonOrder with
    | some i => i
    | none => humanCommonOrder.length + 1
  | _ => humanCommonOrder.length + 1

/-- The strict comparison of `sortMappingNodeKeys`: by rank, ties by key
text. -/
def pairLess (cli : CLI) (a b : Node × Node) : Bool :=
  let ra := rankSortType cli a.1.value
  let rb := rankSortType cli b.1.value
  if ra = rb then goStrLt a.1.value b.1.value else decide (ra < rb)

/-- The non-strict total comparison induced by `pairLess`, driving the
stable sort (see the `sort.SliceStable` modelling note). -/
def pairLe (cli : CLI) (a b : Node × Node) : Bool := !pairLess cli b a

/-- sortMappingNodeKeys from src/main.go: stable-sort the pair list;
no-op on non-mapping nodes. -/
def sortMappingNodeKeys (cli : CLI) (n : Node) : Node :=
  match n with
  | .mapping pairs => .mapping (insertionSortB (pairLe cli) pairs)
  | _ => n

mutual
/-- nodeComparableString from src/main.go: deterministic string rendering
used as the sequence-sort comparison key. -/
def nodeComparableString : Node → String
  | .scalar v => v
  | .document _ => ""
  | .mapping ps => "\x7b" ++ pairsComparable true ps ++ "\x7d"
  | .sequence es => "[" ++ elemsComparable true es ++ "]"

/-- The mapping body of `nodeComparableString` (comma before every entry
but the first, `key:value` per pair). -/
def pairsComparable : Bool → List (Node × Node) → String
  | _, [] => ""
  | first, (k, v) :: rest =>
    (if first then "" else ",") ++ k.value ++ ":" ++ nodeComparableString v ++
      pairsComparable false rest

/-- The sequence body of `nodeComparableString`. -/
def elemsComparable : Bool → List Node → String
  | _, [] => ""
  | first, e :: rest =>
    (if first then "" else ",") ++ nodeComparableString e ++ elemsComparable false rest
end

/-- firstFieldComparableValue from src/main.go: the rendering of the first
pair's value for a nonempty mapping, of the element itself otherwise (the
`el == nil` guard cannot arise in the tree model). -/
def firstFieldComparableValue (el : Node) : String :=
  match el with
  | .mapping ((_, v) :: _) => nodeComparableString v
  | _ => nodeComparableString el

/-- The comparison of `sortSequenceByFirstField` on (key, element) items. -/
def itemLe (a b : String × Node) : Bool := !goStrLt b.1 a.1

/-- sortSequenceByFirstField from src/main.go: precompute each element's
comparison key, stable-sort the items, write the elements back; no-op on
non-sequence nodes. -/
def sortSequenceByFirstField (n : Node) : Node :=
  match n with
  | .sequence es =>
    .sequence ((insertionSortB itemLe (es.map fun e => (firstFieldComparableValue e, e))).map (·.2))
  | _ => n

/-! ### Positions and the orchestrator

Go sorts the resolved targets through pointers into the shared tree.
The model identifies a target by its position — the list of child indices
from the start node — and updates the tree functionally at that position.
`resolvePN` is `resolveTargets` instrumented with positions; the
projection lemmas below prove it agrees with the direct embedding. -/

/-- A position: child indices from the start node.  For a mapping, child
`i` is the value of its `i`-th key/value pair (navigation only ever
descends into values); for a sequence, its `i`-th element. -/
abbrev Pos := List Nat

/-- The `i`-th navigable child of a node. -/
def childAt : Node → Nat → Option Node
  | .mapping ps, i => (ps[i]?).map (·.2)
  | .sequence es, i => es[i]?
  | _, _ => none

/-- Update the element at one index of a list (identity out of bounds). -/
def modifyIdx (f : α → α) : Nat → List α → List α
  | _, [] => []
  | 0, a :: as => f a :: as
  | i + 1, a :: as => a :: modifyIdx f i as

/-- Update the `i`-th navigable child of a node (for a mapping pair, its
value; the key node is untouched). -/
def modifyChild (f : Node → Node) (i : Nat) : Node → Node
  | .mapping ps => .mapping (modifyIdx (fun p => (p.1, f p.2)) i ps)
  | .sequence es => .sequence (modifyIdx f i es)
  | n => n

/-- The node at a position, if the position is valid. -/
def nodeAt : Node → Pos → Option Node
  | n, [] => some n
  | n, i :: rest =>
    match childAt n i with
    | some c => nodeAt c rest
    | none => none

/-- Apply `f` to the node at a position (identity beyond invalid
positions). -/
def modifyAt (f : Node → Node) : Node → Pos → Node
  | n, [] => f n
  | n, i :: rest => modifyChild (fun c => modifyAt f c rest) i n

/-- Pair index of the first pair whose key node's Value equals the key
(the positional counterpart of `findValue`). -/
def findKeyIdx (key : String) : List (Node × Node) → Option Nat
  | [] => none
  | (k, _) :: rest => if k.value = key then some 0 else (findKeyIdx key rest).map (· + 1)

/-- Child indices selected from one working-set node by one step; the
positional counterpart of `stepOne`, with identical error strings. -/
def stepIdxOne (st : pathStep) (n : Node) : Except String (List Nat) :=
  match st with
  | .stepKey key =>
    match n with
    | .mapping ps =>
      match findKeyIdx key ps with
      | some i => .ok [i]
      | none => .error ("key \"" ++ key ++ "\" not found in mapping")
    | _ =>
      .error ("cannot descend into node kind=" ++ toString n.kindNum ++
        " at token \"" ++ key ++ "\"")
  | .stepIndex idx =>
    match n with
    | .sequence es =>
      if idx < 0 ∨ (es.length : Int) ≤ idx then
        .error ("index " ++ toString idx ++ " out of range [0," ++
          toString es.length ++ ")")
      else .ok [idx.toNat]
    | _ =>
      .error ("expected numeric index into sequence, got index " ++
        toString idx ++ " with kind=" ++ toString n.kindNum)
  | .stepAll =>
    match n with
    | .sequence es => .ok (List.range es.length)
    | .mapping ps => .ok (List.range ps.length)
    | _ =>
      .error ("selection [*] requires a sequence or mapping target (got kind=" ++
        toString n.kindNum ++ ")")

/-- One step across the position-instrumented working set. -/
def resolveStepPN (st : pathStep) : List (Pos × Node) → Except String (List (Pos × Node))
  | [] => .ok []
  | (p, n) :: rest =>
    match stepIdxOne st n with
    | .error e => .error e
    | .ok is =>
      (resolveStepPN st rest).map
        ((is.map fun i => (p ++ [i], (childAt n i).getD (.scalar ""))) ++ ·)

/-- The step loop over the instrumented working set. -/
def resolveStepsPN : List (Pos × Node) → List pathStep → Except String (List (Pos × Node))
  | cur, [] => .ok cur
  | cur, st :: rest =>
    match resolveStepPN st cur with
    | .error e => .error e
    | .ok next => resolveStepsPN next rest

/-- Position-instrumented `resolveTargets`, relative to the start node. -/
def resolvePN (start : Node) (steps : List pathStep) : Except String (List (Pos × Node)) :=
  resolveStepsPN [([], start)] steps

/-- Is a node a sortable target (mapping or sequence)? -/
def sortable : Node → Bool
  | .mapping _ => true
  | .sequence _ => true
  | _ => false

/-- The sort the orchestrator dispatches at one target, by the target's
kind (sorts never change a node's kind, so the resolve-time kind equals
the loop-time kind, exactly as for the Go pointer). -/
def sortFor (cli : CLI) (t : Node) : Node → Node :=
  match t with
  | .mapping _ => sortMappingNodeKeys cli
  | .sequence _ => sortSequenceByFirstField
  | _ => id

/-- The sort-target error message of `SortYaml`. -/
def targetErrMsg (path : String) (t : Node) : String :=
  "target at path \"" ++ path ++ "\" must be a mapping or sequence (got kind=" ++
    toString t.kindNum ++ ")"

/-- The target loop of `SortYaml`: sort mapping/sequence targets in order;
a non-sortable target errors unless the step list contained a wildcard,
in which case it is skipped. -/
def applyTargets (cli : CLI) (path : String) (looping : Bool) :
    Node → List (Pos × Node) → Node × Option String
  | n, [] => (n, none)
  | n, (p, t) :: rest =>
    if sortable t then
      applyTargets cli path looping (modifyAt (sortFor cli t) n p) rest
    else if looping then applyTargets cli path looping n rest
    else (n, some (targetErrMsg path t))

/-- Put the possibly-modified start node back into the document wrapper
(the Go mutation happens in place, so the wrapper keeps pointing at it). -/
def rewrap (doc new : Node) : Node :=
  match doc with
  | .document (_ :: rest) => .document (new :: rest)
  | _ => new

/-- One iteration of the path loop of `SortYaml`: parse, resolve, sort the
targets; each stage's error is wrapped with the path as in the Go code. -/
def processPath (cli : CLI) (doc : Node) (path : String) : Node × Option String :=
  match parsePathSteps path with
  | .error e => (doc, some ("invalid path \"" ++ path ++ "\": " ++ e))
  | .ok steps =>
    match resolvePN (startNode doc) steps with
    | .error e => (doc, some ("failed to navigate to path \"" ++ path ++ "\": " ++ e))
    | .ok targets =>
      let r := applyTargets cli path (stepsContainLoop steps) (startNode doc) targets
      (rewrap doc r.1, r.2)

/-- The path loop of `SortYaml`: first error aborts, the tree keeps the
mutations already applied. -/
def sortYamlGo (cli : CLI) : Node → List String → Node × Option String
  | doc, [] => (doc, none)
  | doc, path :: rest =>
    match processPath cli doc path with
    | (d, some e) => (d, some e)
    | (d, none) => sortYamlGo cli d rest

/-- SortYaml from src/main.go: the resulting tree (including partial
mutations on error) together with the error, if any. -/
def SortYaml (cli : CLI) (doc : Node) : Node × Option String :=
  sortYamlGo cli doc cli.yamlPaths

/-! ### Derived definitions used by the statements -/

/-- A trimmed token text that ends in `]` and contains a `[`, with bracket
content that is neither `*` nor an Atoi-parseable integer: exactly the
token bodies `parseTokenCore` rejects. -/
def badBracketCore (t : List Char) : Bool :=
  match firstLBracketIdx t with
  | some lb =>
    if t.getLast? = some ']' then
      !(decide (trimSpace ((t.drop (lb + 1)).dropLast) = ['*']) ||
        (atoi (trimSpace ((t.drop (lb + 1)).dropLast))).isSome)
    else false
  | none => false

/-- A token that, after trimming, is a bad bracket token. -/
def badBracketToken (part0 : List Char) : Bool :=
  badBracketCore (trimSpace part0)

/-- The parse error message produced for a bad trimmed token body. -/
def badCoreMsg (t : List Char) : String :=
  match firstLBracketIdx t with
  | some lb =>
    "invalid bracket selection \"" ++ (trimSpace ((t.drop (lb + 1)).dropLast)).asString ++ "\""
  | none => ""

/-- The parse error message produced for a bad token. -/
def badTokenMsg (part0 : List Char) : String :=
  badCoreMsg (trimSpace part0)

/-- The pair list of a mapping node (empty for other kinds). -/
def pairsOf : Node → List (Node × Node)
  | .mapping ps => ps
  | _ => []

/-- The element list of a sequence node (empty for other kinds). -/
def elemsOf : Node → List Node
  | .sequence es => es
  | _ => []

/-- Flatten a pair list back into the flat `Content` list of go-yaml. -/
def flatPairs : List (Node × Node) → List Node
  | [] => []
  | (k, v) :: rest => k :: v :: flatPairs rest

/-- The flat `Content` list of a node, as stored by go-yaml. -/
def flatContent : Node → List Node
  | .mapping ps => flatPairs ps
  | .sequence es => es
  | .document cs => cs
  | .scalar _ => []

/-- The navigation-relevant shape of a node: its kind, plus the ordered
key texts of a mapping or the length of a sequence.  Every decision the
resolver takes at a node (and every error message it emits there) is a
function of this shape alone. -/
inductive NodeShape where
  | scalarS
  | documentS
  | mappingS (keys : List String)
  | sequenceS (len : Nat)
deriving DecidableEq, Repr

/-- The shape of a node. -/
def Node.shape : Node → NodeShape
  | .scalar _ => .scalarS
  | .document _ => .documentS
  | .mapping ps => .mappingS (ps.map fun p => p.1.value)
  | .sequence es => .sequenceS es.length

/-- Kind number recovered from a shape. -/
def shapeKindNum : NodeShape → Nat
  | .documentS => 1
  | .sequenceS _ => 2
  | .mappingS _ => 4
  | .scalarS => 8

/-- Shape-level first-match key scan. -/
def findIdxKeyS (key : String) : List String → Option Nat
  | [] => none
  | k :: rest => if k = key then some 0 else (findIdxKeyS key rest).map (· + 1)

/-- Shape-level counterpart of `stepIdxOne`: the resolver's decision at
one node as a function of the node's shape only. -/
def stepIdxOneS (st : pathStep) (sh : NodeShape) : Except String (List Nat) :=
  match st with
  | .stepKey key =>
    match sh with
    | .mappingS ks =>
      match findIdxKeyS key ks with
      | some i => .ok [i]
      | none => .error ("key \"" ++ key ++ "\" not found in mapping")
    | _ =>
      .error ("cannot descend into node kind=" ++ toString (shapeKindNum sh) ++
        " at token \"" ++ key ++ "\"")
  | .stepIndex idx =>
    match sh with
    | .sequenceS len =>
      if idx < 0 ∨ (len : Int) ≤ idx then
        .error ("index " ++ toString idx ++ " out of range [0," ++ toString len ++ ")")
      else .ok [idx.toNat]
    | _ =>
      .error ("expected numeric index into sequence, got index " ++
        toString idx ++ " with kind=" ++ toString (shapeKindNum sh))
  | .stepAll =>
    match sh with
    | .sequenceS len => .ok (List.range len)
    | .mappingS ks => .ok (List.range ks.length)
    | _ =>
      .error ("selection [*] requires a sequence or mapping target (got kind=" ++
        toString (shapeKindNum sh) ++ ")")

/-- The fold of the target sorts over the tree (the error-free part of the
target loop). -/
def applySorts (cli : CLI) : Node → List (Pos × Node) → Node
  | n, [] => n
  | n, (p, t) :: rest => applySorts cli (modifyAt (sortFor cli t) n p) rest

/-- The fan-out of one node under a Wildcard step: all elements of a
sequence, all values of a mapping (empty for non-iterable kinds, which
error instead). -/
def wildcardExpand : Node → List Node
  | .sequence es => es
  | .mapping ps => ps.map (·.2)
  | _ => []

/-- Go string non-strict comparison `a <= b` (i.e. `!(b < a)`). -/
def goStrLe (a b : String) : Bool := !goStrLt b a

/-- Validity of a working set: each carried node is the node at its
carried position. -/
def ValidWS (root : Node) (ws : List (Pos × Node)) : Prop :=
  ∀ pn ∈ ws, nodeAt root pn.1 = some pn.2

/-- All positions of a working set have the given length. -/
def PosOK (k : Nat) (ws : List (Pos × Node)) : Prop :=
  ∀ pn ∈ ws, pn.1.length = k

/-- The shape of the node at a position. -/
def shapeAt (d : Node) (q : Pos) : Option NodeShape :=
  (nodeAt d q).map Node.shape

/-- Two trees agree in shape at every position shorter than the bound. -/
def ShapeAgreeBelow (nlim : Nat) (d0 d1 : Node) : Prop :=
  ∀ q : Pos, q.length < nlim → shapeAt d1 q = shapeAt d0 q

/-! ### Supporting lemmas -/

theorem findIndexOf_eq_none (key : String) (l : List String) (h : key ∉ l) :
    findIndexOf key l = none := by
  induction l with
  | nil => rfl
  | cons k rest ih =>
    simp only [List.mem_cons, not_or] at h
    simp [findIndexOf, h.1, ih h.2]

theorem getD_eq_get (l : List α) (i : Nat) (d : α) (h : i < l.length) :
    l.getD i d = l.get ⟨i, h⟩ := by
  simp [List.getD_eq_getElem?_getD, List.getElem?_eq_getElem h]

/-! ### C1 -/

/-- C1: the claim states that a `Key` step against a Sequence whose key
text parses as a non-negative integer is treated as an `Index` access.
Counterexample: the resolver rejects every `Key` step against a Sequence
with the cannot-descend error, numeric key text included — `Key "0"`
against a two-element sequence errors instead of resolving to the first
element. -/
theorem c1_counterexample :
    resolveTargets (Node.sequence [Node.scalar "a", Node.scalar "b"]) [pathStep.stepKey "0"] =
      Except.error "cannot descend into node kind=2 at token \"0\"" ∧
    resolveTargets (Node.sequence [Node.scalar "a", Node.scalar "b"]) [pathStep.stepKey "0"] ≠
      Except.ok [Node.scalar "a"] :=
  ⟨rfl, fun h => Except.noConfusion h⟩

/-- C1 (amended): a `Key` step against a Sequence working-set node always
fails with the cannot-descend (kind=2) error naming the key text,
regardless of whether the key parses as an integer; sequence elements are
reachable only through a bracket `Index` step, which succeeds exactly on
in-range indices. -/
theorem c1_amended :
    (∀ (es : List Node) (key : String),
      resolveTargets (Node.sequence es) [pathStep.stepKey key] =
        Except.error ("cannot descend into node kind=2 at token \"" ++ key ++ "\"")) ∧
    (∀ (es : List Node) (i : Nat) (h : i < es.length),
      resolveTargets (Node.sequence es) [pathStep.stepIndex (i : Int)] =
        Except.ok [es.get ⟨i, h⟩]) := by
  constructor
  · intro es key
    have hk : (Node.sequence es).kindNum = 2 := rfl
    simp only [resolveTargets, resolveSteps, resolveStep, stepOne, startNode, hk]
    rfl
  · intro es i h
    have hb : ¬((i : Int) < 0 ∨ (es.length : Int) ≤ (i : Int)) := by
      push_neg
      exact ⟨Int.natCast_nonneg i, by exact_mod_cast h⟩
    have h1 : stepOne (.stepIndex (i : Int)) (Node.sequence es) = .ok [es.get ⟨i, h⟩] := by
      simp only [stepOne]
      rw [if_neg hb]
      have ht : ((i : Int)).toNat = i := by simp
      rw [ht, getD_eq_get es i _ h]
    simp [resolveTargets, resolveSteps, resolveStep, startNode, h1, Except.map]

/-- C1 (amended) witness at concrete inputs. -/
theorem c1_amended_witness :
    resolveTargets (Node.sequence [Node.scalar "x"]) [pathStep.stepKey "meta"] =
      Except.error "cannot descend into node kind=2 at token \"meta\"" ∧
    resolveTargets (Node.sequence [Node.scalar "x", Node.scalar "y"]) [pathStep.stepIndex 1] =
      Except.ok [Node.scalar "y"] :=
  ⟨c1_amended.1 [Node.scalar "x"] "meta",
   c1_amended.2 [Node.scalar "x", Node.scalar "y"] 1 (by decide)⟩

/-! ### C3 -/

/-- C3: the claim states that in Human mode a key absent from the priority
list gets rank 9 (one past the list length).  Counterexample: the code
returns `len(humanCommonOrder) + 1 = 10` for such keys. -/
theorem c3_counterexample :
    rankSortType ⟨[], "human"⟩ "zzz" = 10 ∧ rankSortType ⟨[], "human"⟩ "zzz" ≠ 9 := by
  decide

/-- C3 (amended): in Human mode the nine priority keys rank 0..8 in list
order and every other key ranks 10 (the list length plus one); in
Alphanumeric mode every key ranks the constant 10. -/
theorem c3_amended :
    (∀ cli : CLI, cli.sortType = "human" →
      (rankSortType cli "apiVersion" = 0 ∧ rankSortType cli "kind" = 1 ∧
       rankSortType cli "metadata" = 2 ∧ rankSortType cli "name" = 3 ∧
       rankSortType cli "namespace" = 4 ∧ rankSortType cli "labels" = 5 ∧
       rankSortType cli "annotations" = 6 ∧ rankSortType cli "id" = 7 ∧
       rankSortType cli "version" = 8) ∧
      ∀ key, key ∉ humanCommonOrder → rankSortType cli key = 10) ∧
    (∀ cli : CLI, cli.sortType = "alphanumeric" →
      ∀ key, rankSortType cli key = 10) := by
  refine ⟨fun cli h => ⟨?_, fun key hk => ?_⟩, fun cli h key => ?_⟩
  · unfold rankSortType
    rw [h]
    exact ⟨rfl, rfl, rfl, rfl, rfl, rfl, rfl, rfl, rfl⟩
  · unfold rankSortType
    rw [h, findIndexOf_eq_none key humanCommonOrder hk]
    rfl
  · unfold rankSortType
    rw [h]
    rfl

/-- C3 (amended) witness at concrete inputs. -/
theorem c3_amended_witness :
    rankSortType ⟨[], "human"⟩ "apiVersion" = 0 ∧
    rankSortType ⟨[], "human"⟩ "colour" = 10 ∧
    rankSortType ⟨[], "alphanumeric"⟩ "name" = 10 :=
  ⟨((c3_amended.1 ⟨[], "human"⟩ rfl).1).1,
   (c3_amended.1 ⟨[], "human"⟩ rfl).2 "colour" (by decide),
   c3_amended.2 ⟨[], "alphanumeric"⟩ rfl "name"⟩

/-! ### C8 -/

/-- C8: the empty path and `"."` parse to the empty step sequence; an
empty step sequence resolves to exactly the start (document content) node;
tokens that trim to empty contribute no steps, so leading, trailing or
doubled dots are skipped — `"a..b"` and `".a.b."` parse like `"a.b"`. -/
theorem c8_empty_path_and_empty_tokens :
    parsePathSteps "" = .ok [] ∧ parsePathSteps "." = .ok [] ∧
    (∀ root : Node, resolveTargets root [] = .ok [startNode root]) ∧
    (∀ part : List Char, trimSpace part = [] → parseToken part = .ok []) ∧
    parsePathSteps "a..b" = .ok [.stepKey "a", .stepKey "b"] ∧
    parsePathSteps ".a.b." = .ok [.stepKey "a", .stepKey "b"] ∧
    parsePathSteps "a.b" = .ok [.stepKey "a", .stepKey "b"] := by
  refine ⟨rfl, rfl, fun root => rfl, fun part h => ?_, rfl, rfl, rfl⟩
  unfold parseToken
  rw [h]
  rfl

/-- C8 witness at concrete inputs. -/
theorem c8_witness :
    resolveTargets (Node.document [Node.scalar "x"]) [] = .ok [Node.scalar "x"] ∧
    parseToken " ".toList = .ok [] :=
  ⟨c8_empty_path_and_empty_tokens.2.2.1 (Node.document [Node.scalar "x"]),
   c8_empty_path_and_empty_tokens.2.2.2.1 " ".toList (by decide)⟩

/-! ### C2 -/

theorem bracketSel_isOk (inside : List Char)
    (h : inside = ['*'] ∨ (atoi inside).isSome = true) : ∃ ss, bracketSel inside = .ok ss := by
  unfold bracketSel
  rcases h with h | h
  · exact ⟨[.stepAll], by rw [if_pos h]⟩
  · rcases Option.isSome_iff_exists.mp h with ⟨n, hn⟩
    by_cases hs : inside = ['*']
    · exact ⟨[.stepAll], by rw [if_pos hs]⟩
    · exact ⟨[.stepIndex n], by rw [if_neg hs, hn]⟩

theorem bracketSel_err (inside : List Char)
    (h : ¬(inside = ['*'] ∨ (atoi inside).isSome = true)) :
    bracketSel inside = .error ("invalid bracket selection \"" ++ inside.asString ++ "\"") := by
  push_neg at h
  obtain ⟨h1, h2⟩ := h
  unfold bracketSel
  rw [if_neg h1]
  rcases ha : atoi inside with _ | n
  · rfl
  · exact absurd (by rw [ha]; rfl) h2

theorem not_or_decide_eq_false (X : Prop) [Decidable X] (Y : Bool)
    (h : X ∨ Y = true) : (!(decide X || Y)) = false := by
  rcases h with h | h <;> simp [h]

theorem not_or_decide_eq_true (X : Prop) [Decidable X] (Y : Bool)
    (h : ¬(X ∨ Y = true)) : (!(decide X || Y)) = true := by
  push_neg at h
  simp [h.1, Bool.eq_false_iff.mpr h.2]

/-- Every trimmed token body either parses (and is not a bad bracket
body), or is a bad bracket body and yields exactly the bracket-selection
parse error naming its bracket content. -/
theorem parseTokenCore_cases (t : List Char) :
    (badBracketCore t = false ∧ ∃ ss, parseTokenCore t = .ok ss) ∨
    (badBracketCore t = true ∧ parseTokenCore t = .error (badCoreMsg t)) := by
  by_cases hE : t = []
  · subst hE
    exact .inl ⟨rfl, [], rfl⟩
  by_cases hA : t.head? = some '[' ∧ t.getLast? = some ']'
  · -- bracket-only token
    obtain ⟨cs, rfl⟩ : ∃ cs, t = '[' :: cs := by
      rcases t with _ | ⟨c, cs⟩
      · exact absurd rfl hE
      · obtain rfl : c = '[' := by simpa using hA.1
        exact ⟨cs, rfl⟩
    have hfl : firstLBracketIdx ('[' :: cs) = some 0 := rfl
    by_cases hI : trimSpace ((('[' :: cs).drop 1).dropLast) = ['*'] ∨
        (atoi (trimSpace ((('[' :: cs).drop 1).dropLast))).isSome = true
    · left
      constructor
      · unfold badBracketCore
        rw [hfl]
        dsimp only
        rw [if_pos hA.2]
        exact not_or_decide_eq_false _ _ hI
      · obtain ⟨ss, hss⟩ := bracketSel_isOk _ hI
        exact ⟨ss, by unfold parseTokenCore; rw [if_neg hE, if_pos hA]; exact hss⟩
    · right
      constructor
      · unfold badBracketCore
        rw [hfl]
        dsimp only
        rw [if_pos hA.2]
        exact not_or_decide_eq_true _ _ hI
      · unfold parseTokenCore badCoreMsg
        rw [if_neg hE, if_pos hA, hfl]
        exact bracketSel_err _ hI
  · -- not a bracket-only token
    rcases hL : firstLBracketIdx t with _ | lb
    · left
      refine ⟨?_, [.stepKey t.asString], ?_⟩
      · unfold badBracketCore
        rw [hL]
      · unfold parseTokenCore
        rw [if_neg hE, if_neg hA, hL]
    · by_cases hG : t.getLast? = some ']'
      · by_cases hI : trimSpace ((t.drop (lb + 1)).dropLast) = ['*'] ∨
            (atoi (trimSpace ((t.drop (lb + 1)).dropLast))).isSome = true
        · left
          constructor
          · unfold badBracketCore
            rw [hL]
            dsimp only
            rw [if_pos hG]
            exact not_or_decide_eq_false _ _ hI
          · obtain ⟨ss, hss⟩ := bracketSel_isOk _ hI
            refine ⟨(if t.take lb = [] then [] else [pathStep.stepKey (t.take lb).asString]) ++ ss, ?_⟩
            unfold parseTokenCore
            rw [if_neg hE, if_neg hA, hL]
            dsimp only
            rw [if_pos hG, hss]
            rfl
        · right
          constructor
          · unfold badBracketCore
            rw [hL]
            dsimp only
            rw [if_pos hG]
            exact not_or_decide_eq_true _ _ hI
          · unfold parseTokenCore badCoreMsg
            rw [if_neg hE, if_neg hA, hL]
            dsimp only
            rw [if_pos hG, bracketSel_err _ hI]
            rfl
      · left
        refine ⟨?_, [.stepKey t.asString], ?_⟩
        · unfold badBracketCore
          rw [hL]
          dsimp only
          rw [if_neg hG]
        · unfold parseTokenCore
          rw [if_neg hE, if_neg hA, hL]
          dsimp only
          rw [if_neg hG]

/-- Lift of `parseTokenCore_cases` to raw tokens. -/
theorem parseToken_cases (part : List Char) :
    (badBracketToken part = false ∧ ∃ ss, parseToken part = .ok ss) ∨
    (badBracketToken part = true ∧ parseToken part = .error (badTokenMsg part)) :=
  parseTokenCore_cases (trimSpace part)

theorem exists_ok_map {f : List pathStep → List pathStep} (e : Except String (List pathStep)) :
    (∃ x, e.map f = .ok x) ↔ ∃ y, e = .ok y := by
  cases e <;> simp [Except.map]

theorem parseTokens_cons_ok (p : List Char) (rest : List (List Char)) (ss : List pathStep)
    (h : parseToken p = .ok ss) :
    parseTokens (p :: rest) = (parseTokens rest).map (ss ++ ·) := by
  simp only [parseTokens, h]

theorem parseTokens_cons_err (p : List Char) (rest : List (List Char)) (e : String)
    (h : parseToken p = .error e) : parseTokens (p :: rest) = .error e := by
  simp only [parseTokens, h]

/-- The token loop succeeds exactly when no token is a bad bracket token. -/
theorem parseTokens_ok_iff (ts : List (List Char)) :
    (∃ ss, parseTokens ts = .ok ss) ↔ ∀ part ∈ ts, badBracketToken part = false := by
  induction ts with
  | nil => simp [parseTokens]
  | cons p rest ih =>
    rcases parseToken_cases p with ⟨hb, ss, hok⟩ | ⟨hb, herr⟩
    · rw [parseTokens_cons_ok p rest ss hok, exists_ok_map, ih]
      simp [hb]
    · rw [parseTokens_cons_err p rest _ herr]
      simp [hb]

/-- The token loop fails with the error of the first bad token. -/
theorem parseTokens_first_err (ts : List (List Char)) (part : List Char)
    (h : ts.find? badBracketToken = some part) :
    parseTokens ts = .error (badTokenMsg part) := by
  induction ts with
  | nil => simp [List.find?] at h
  | cons p rest ih =>
    by_cases hb : badBracketToken p = true
    · rw [List.find?_cons_of_pos _ hb] at h
      obtain rfl : p = part := by injection h
      rcases parseToken_cases p with ⟨hb', _⟩ | ⟨_, herr⟩
      · rw [hb] at hb'; cases hb'
      · exact parseTokens_cons_err p rest _ herr
    · rw [List.find?_cons_of_neg _ (by simpa using hb)] at h
      rcases parseToken_cases p with ⟨_, ss, hok⟩ | ⟨hb', _⟩
      · rw [parseTokens_cons_ok p rest ss hok, ih h]
        rfl
      · exact absurd hb' hb

/-- C2: the claim states that `[-1]` (negative index) and `name[0`
(unclosed bracket) are parse errors.  Counterexample: `strconv.Atoi`
accepts signed integers so `[-1]` parses to `Index(-1)`, and a token with
an unmatched bracket falls through to a literal key step, so `name[0`
parses to `Key("name[0")`. -/
theorem c2_counterexample :
    parsePathSteps "[-1]" = .ok [.stepIndex (-1)] ∧
    parsePathSteps "name[0" = .ok [.stepKey "name[0"] :=
  ⟨rfl, rfl⟩

/-- C2 (amended): parsing fails exactly when some dot-separated token,
after trimming, both contains a `[` and ends with `]` and its bracket
content (between the first `[` and the final `]`, trimmed) is neither `*`
nor an integer `strconv.Atoi` accepts (optionally signed, within the
64-bit range); the error names the offending bracket content of the first
such token.  In particular a negative index such as `[-1]` parses
successfully (failing only later at resolution) and a token with an
unmatched bracket such as `name[0` parses as a literal key. -/
theorem c2_amended :
    (∀ path : String,
      ((parsePathSteps path).isOk = true ↔
        ∀ part ∈ splitOnDot (trimSpace path.toList), badBracketToken part = false)) ∧
    (∀ (path : String) (part : List Char),
      (splitOnDot (trimSpace path.toList)).find? badBracketToken = some part →
      parsePathSteps path = .error (badTokenMsg part)) := by
  constructor
  · intro path
    unfold parsePathSteps
    by_cases hq : trimSpace path.toList = [] ∨ trimSpace path.toList = ['.']
    · rw [if_pos hq]
      simp only [Except.isOk, true_iff]
      rcases hq with hq | hq <;> rw [hq] <;> decide
    · rw [if_neg hq]
      constructor
      · intro hok
        refine (parseTokens_ok_iff _).mp ?_
        rcases hx : parseTokens (splitOnDot (trimSpace path.toList)) with e | ss
        · rw [hx] at hok
          simp [Except.isOk, Except.toBool] at hok
        · exact ⟨ss, rfl⟩
      · intro hall
        obtain ⟨ss, hss⟩ := (parseTokens_ok_iff _).mpr hall
        rw [hss]
        rfl
  · intro path part h
    unfold parsePathSteps
    by_cases hq : trimSpace path.toList = [] ∨ trimSpace path.toList = ['.']
    · exfalso
      have hn : (splitOnDot (trimSpace path.toList)).find? badBracketToken = none := by
        rcases hq with hq | hq <;> rw [hq] <;> decide
      rw [hn] at h
      exact Option.noConfusion h
    · rw [if_neg hq]
      exact parseTokens_first_err _ _ h

/-- C2 (amended) witness at a concrete input. -/
theorem c2_amended_witness :
    parsePathSteps "servers[x].roles" = .error "invalid bracket selection \"x\"" :=
  c2_amended.2 "servers[x].roles" "servers[x]".toList (by decide)

/-! ### The character-list order -/

theorem charListLt_irrefl (l : List Char) : charListLt l l = false := by
  induction l with
  | nil => rfl
  | cons c cs ih => simp [charListLt, ih]

theorem charListLt_asymm (a b : List Char) (h : charListLt a b = true) :
    charListLt b a = false := by
  induction a generalizing b with
  | nil =>
    cases b with
    | nil => simp [charListLt] at h
    | cons y ys => rfl
  | cons x xs ih =>
    cases b with
    | nil => simp [charListLt] at h
    | cons y ys =>
      simp only [charListLt] at h ⊢
      by_cases hxy : x < y
      · rw [if_neg (asymm hxy), if_pos hxy]
      · rw [if_neg hxy] at h
        by_cases hyx : y < x
        · rw [if_pos hyx] at h
          cases h
        · rw [if_neg hyx] at h ⊢
          rw [if_neg hxy]
          exact ih ys h

theorem charListLt_trans (a b c : List Char) (hab : charListLt a b = true)
    (hbc : charListLt b c = true) : charListLt a c = true := by
  induction a generalizing b c with
  | nil =>
    cases c with
    | nil =>
      cases b with
      | nil => exact hab
      | cons y ys => simp [charListLt] at hbc
    | cons z zs => rfl
  | cons x xs ih =>
    cases b with
    | nil => simp [charListLt] at hab
    | cons y ys =>
      cases c with
      | nil => simp [charListLt] at hbc
      | cons z zs =>
        simp only [charListLt] at hab hbc ⊢
        by_cases hxy : x < y
        · -- x < y; combine with y ? z
          by_cases hyz : y < z
          · rw [if_pos (lt_trans hxy hyz)]
          · rw [if_neg hyz] at hbc
            by_cases hzy : z < y
            · rw [if_pos hzy] at hbc
              cases hbc
            · -- y = z as characters
              have hyz' : y = z := le_antisymm (not_lt.mp hzy) (not_lt.mp hyz)
              rw [← hyz', if_pos hxy]
        · rw [if_neg hxy] at hab
          by_cases hyx : y < x
          · rw [if_pos hyx] at hab
            cases hab
          · have hxy' : x = y := le_antisymm (not_lt.mp hyx) (not_lt.mp hxy)
            subst hxy'
            by_cases hxz : x < z
            · rw [if_pos hxz]
            · rw [if_neg hxz] at hbc ⊢
              by_cases hzx : z < x
              · rw [if_pos hzx] at hbc
                cases hbc
              · rw [if_neg hzx] at hbc ⊢
                rw [if_neg hxy] at hab
                exact ih ys zs hab hbc

theorem charListLt_trichotomy (a b : List Char) :
    charListLt a b = true ∨ a = b ∨ charListLt b a = true := by
  induction a generalizing b with
  | nil =>
    cases b with
    | nil => exact .inr (.inl rfl)
    | cons y ys => exact .inl rfl
  | cons x xs ih =>
    cases b with
    | nil => exact .inr (.inr rfl)
    | cons y ys =>
      rcases lt_trichotomy x y with hxy | hxy | hxy
      · exact .inl (by simp [charListLt, hxy])
      · subst hxy
        rcases ih ys with h | h | h
        · exact .inl (by simp [charListLt, charListLt_irrefl, h])
        · exact .inr (.inl (by rw [h]))
        · exact .inr (.inr (by simp [charListLt, h]))
      · exact .inr (.inr (by simp [charListLt, hxy]))

theorem goStrLt_irrefl (a : String) : goStrLt a a = false := charListLt_irrefl _

theorem goStrLt_asymm (a b : String) (h : goStrLt a b = true) : goStrLt b a = false :=
  charListLt_asymm _ _ h

theorem goStrLt_trans (a b c : String) (hab : goStrLt a b = true) (hbc : goStrLt b c = true) :
    goStrLt a c = true := charListLt_trans _ _ _ hab hbc

theorem string_toList_inj (a b : String) (h : a.toList = b.toList) : a = b := by
  cases a
  cases b
  simp only [String.toList] at h
  simp only [h]

theorem goStrLt_trichotomy (a b : String) :
    goStrLt a b = true ∨ a = b ∨ goStrLt b a = true := by
  rcases charListLt_trichotomy a.toList b.toList with h | h | h
  · exact .inl h
  · exact .inr (.inl (string_toList_inj a b h))
  · exact .inr (.inr h)

theorem goStrLe_total (a b : String) : goStrLe a b = true ∨ goStrLe b a = true := by
  unfold goStrLe
  rcases hx : goStrLt b a with _ | _
  · exact .inl rfl
  · right
    rw [goStrLt_asymm b a hx]
    rfl

theorem goStrLe_trans (a b c : String) (hab : goStrLe a b = true) (hbc : goStrLe b c = true) :
    goStrLe a c = true := by
  unfold goStrLe at *
  rcases hx : goStrLt c a with _ | _
  · rfl
  · exfalso
    rcases goStrLt_trichotomy a b with h | h | h
    · rw [goStrLt_trans c a b hx h] at hbc
      cases hbc
    · subst h
      rw [hx] at hbc
      cases hbc
    · rw [h] at hab
      cases hab

/-! ### Stable insertion sort: permutation, sortedness, stability -/

theorem insertB_perm (le : α → α → Bool) (a : α) (l : List α) :
    (insertionSortB.insertB le a l).Perm (a :: l) := by
  induction l with
  | nil => exact List.Perm.refl _
  | cons b bs ih =>
    unfold insertionSortB.insertB
    by_cases h : le a b = true
    · rw [if_pos h]
    · rw [if_neg h]
      exact (List.Perm.cons b ih).trans (List.Perm.swap a b bs)

theorem insertionSortB_perm (le : α → α → Bool) (l : List α) :
    (insertionSortB le l).Perm l := by
  induction l with
  | nil => exact List.Perm.refl _
  | cons a as ih =>
    unfold insertionSortB
    exact (insertB_perm le a _).trans (List.Perm.cons a ih)

theorem pairwise_insertB (le : α → α → Bool)
    (htot : ∀ a b, le a b = true ∨ le b a = true)
    (htr : ∀ a b c, le a b = true → le b c = true → le a c = true)
    (a : α) (l : List α) (h : l.Pairwise fun x y => le x y = true) :
    (insertionSortB.insertB le a l).Pairwise fun x y => le x y = true := by
  induction l with
  | nil => simp [insertionSortB.insertB]
  | cons b bs ih =>
    rw [List.pairwise_cons] at h
    obtain ⟨hb, hbs⟩ := h
    unfold insertionSortB.insertB
    by_cases hab : le a b = true
    · rw [if_pos hab]
      refine List.Pairwise.cons ?_ (List.Pairwise.cons hb hbs)
      intro y hy
      rcases List.mem_cons.mp hy with rfl | hy'
      · exact hab
      · exact htr a b y hab (hb y hy')
    · rw [if_neg hab]
      refine List.Pairwise.cons ?_ (ih hbs)
      intro y hy
      have hy' := (insertB_perm le a bs).mem_iff.mp hy
      rcases List.mem_cons.mp hy' with rfl | hy''
      · rcases htot y b with h | h
        · exact absurd h hab
        · exact h
      · exact hb y hy''

theorem pairwise_insertionSortB (le : α → α → Bool)
    (htot : ∀ a b, le a b = true ∨ le b a = true)
    (htr : ∀ a b c, le a b = true → le b c = true → le a c = true)
    (l : List α) :
    (insertionSortB le l).Pairwise fun x y => le x y = true := by
  induction l with
  | nil => simp [insertionSortB]
  | cons a as ih =>
    unfold insertionSortB
    exact pairwise_insertB le htot htr a _ ih

theorem insertionSortB_of_pairwise (le : α → α → Bool) (l : List α)
    (h : l.Pairwise fun x y => le x y = true) : insertionSortB le l = l := by
  induction l with
  | nil => rfl
  | cons a as ih =>
    rw [List.pairwise_cons] at h
    obtain ⟨ha, has⟩ := h
    unfold insertionSortB
    rw [ih has]
    cases as with
    | nil => rfl
    | cons b bs =>
      unfold insertionSortB.insertB
      rw [if_pos (ha b (List.mem_cons_self b bs))]

theorem insertionSortB_idem (le : α → α → Bool)
    (htot : ∀ a b, le a b = true ∨ le b a = true)
    (htr : ∀ a b c, le a b = true → le b c = true → le a c = true)
    (l : List α) : insertionSortB le (insertionSortB le l) = insertionSortB le l :=
  insertionSortB_of_pairwise le _ (pairwise_insertionSortB le htot htr l)

theorem sublist_self_insertB (le : α → α → Bool) (a : α) (t : List α) :
    t.Sublist (insertionSortB.insertB le a t) := by
  induction t with
  | nil => simp [insertionSortB.insertB]
  | cons b bs ih =>
    unfold insertionSortB.insertB
    by_cases h : le a b = true
    · rw [if_pos h]
      exact List.Sublist.cons a (List.Sublist.refl _)
    · rw [if_neg h]
      exact List.Sublist.cons₂ b ih

theorem pair_sublist_insertB (le : α → α → Bool) (a y : α) (t : List α)
    (hay : le a y = true) (hy : [y].Sublist t) :
    [a, y].Sublist (insertionSortB.insertB le a t) := by
  induction t with
  | nil => simp at hy
  | cons b bs ih =>
    unfold insertionSortB.insertB
    by_cases h : le a b = true
    · rw [if_pos h]
      exact List.Sublist.cons₂ a hy
    · rw [if_neg h]
      cases hy with
      | cons _ h' => exact List.Sublist.cons b (ih h')
      | cons₂ _ h' => exact absurd hay h

theorem stable_insertionSortB (le : α → α → Bool) (x y : α) (l : List α)
    (hxy : le x y = true) (hsub : [x, y].Sublist l) :
    [x, y].Sublist (insertionSortB le l) := by
  induction l with
  | nil => simp at hsub
  | cons a as ih =>
    unfold insertionSortB
    cases hsub with
    | cons _ h' => exact (ih h').trans (sublist_self_insertB le a _)
    | cons₂ _ h' =>
      have hy : y ∈ insertionSortB le as :=
        (insertionSortB_perm le as).mem_iff.mpr (List.singleton_sublist.mp h')
      exact pair_sublist_insertB le x y _ hxy (List.singleton_sublist.mpr hy)

/-! ### The concrete comparators -/

theorem goStrLe_eq_true_iff (a b : String) : goStrLe a b = true ↔ goStrLt b a = false := by
  unfold goStrLe
  cases goStrLt b a <;> simp

theorem pairLe_iff (cli : CLI) (a b : Node × Node) :
    pairLe cli a b = true ↔
      (rankSortType cli a.1.value < rankSortType cli b.1.value ∨
       (rankSortType cli a.1.value = rankSortType cli b.1.value ∧
        goStrLt b.1.value a.1.value = false)) := by
  unfold pairLe pairLess
  by_cases hr : rankSortType cli b.1.value = rankSortType cli a.1.value
  · rw [if_pos hr]
    cases hg : goStrLt b.1.value a.1.value <;> simp [hr, hg]
  · rw [if_neg hr]
    constructor
    · intro h
      left
      have h' : ¬ rankSortType cli b.1.value < rankSortType cli a.1.value := by simpa using h
      omega
    · intro h
      have h' : ¬ rankSortType cli b.1.value < rankSortType cli a.1.value := by
        rcases h with h | ⟨h, _⟩ <;> omega
      simpa using h'

theorem pairLe_total (cli : CLI) (a b : Node × Node) :
    pairLe cli a b = true ∨ pairLe cli b a = true := by
  rw [pairLe_iff, pairLe_iff]
  rcases Nat.lt_trichotomy (rankSortType cli a.1.value) (rankSortType cli b.1.value) with h | h | h
  · exact .inl (.inl h)
  · rcases hg : goStrLt b.1.value a.1.value with _ | _
    · exact .inl (.inr ⟨h, rfl⟩)
    · exact .inr (.inr ⟨h.symm, goStrLt_asymm _ _ hg⟩)
  · exact .inr (.inl h)

theorem pairLe_trans (cli : CLI) (a b c : Node × Node)
    (hab : pairLe cli a b = true) (hbc : pairLe cli b c = true) :
    pairLe cli a c = true := by
  rw [pairLe_iff] at hab hbc ⊢
  rcases hab with h1 | ⟨h1, g1⟩
  · rcases hbc with h2 | ⟨h2, g2⟩
    · exact .inl (Nat.lt_trans h1 h2)
    · exact .inl (h2 ▸ h1)
  · rcases hbc with h2 | ⟨h2, g2⟩
    · exact .inl (h1 ▸ h2)
    · refine .inr ⟨h1.trans h2, ?_⟩
      have := goStrLe_trans a.1.value b.1.value c.1.value
        ((goStrLe_eq_true_iff _ _).mpr g1) ((goStrLe_eq_true_iff _ _).mpr g2)
      exact (goStrLe_eq_true_iff _ _).mp this

theorem itemLe_total (a b : String × Node) : itemLe a b = true ∨ itemLe b a = true :=
  goStrLe_total a.1 b.1

theorem itemLe_trans (a b c : String × Node)
    (hab : itemLe a b = true) (hbc : itemLe b c = true) : itemLe a c = true :=
  goStrLe_trans a.1 b.1 c.1 hab hbc

/-! ### C4 -/

theorem resolveStepAll_ok_sortable (cur : List Node) (v : List Node)
    (hv : resolveStep .stepAll cur = .ok v) : ∀ n ∈ cur, sortable n = true := by
  induction cur generalizing v with
  | nil => simp
  | cons m rest ih =>
    intro n hn
    rcases List.mem_cons.mp hn with rfl | hn'
    · cases n with
      | mapping ps => rfl
      | sequence es => rfl
      | scalar s =>
        exfalso
        unfold resolveStep at hv
        simp [stepOne] at hv
      | document cs =>
        exfalso
        unfold resolveStep at hv
        simp [stepOne] at hv
    · rcases hm : stepOne .stepAll m with e | xs
      · unfold resolveStep at hv
        rw [hm] at hv
        cases hv
      · unfold resolveStep at hv
        rw [hm] at hv
        rcases hrest : resolveStep .stepAll rest with e | ys
        · rw [hrest] at hv
          cases hv
        · exact ih ys hrest n hn'

theorem resolveStepAll_expand (cur : List Node) (h : ∀ n ∈ cur, sortable n = true) :
    resolveStep .stepAll cur = .ok (cur.flatMap wildcardExpand) := by
  induction cur with
  | nil => rfl
  | cons n rest ih =>
    have hn := h n (List.mem_cons_self n rest)
    have hrest := ih fun m hm => h m (List.mem_cons_of_mem n hm)
    cases n with
    | mapping ps =>
      unfold resolveStep
      rw [show stepOne .stepAll (Node.mapping ps) = .ok (ps.map (·.2)) from rfl, hrest]
      simp [wildcardExpand, Except.map]
    | sequence es =>
      unfold resolveStep
      rw [show stepOne .stepAll (Node.sequence es) = .ok es from rfl, hrest]
      simp [wildcardExpand, Except.map]
    | scalar s => simp [sortable] at hn
    | document cs => simp [sortable] at hn

/-- C4: a Wildcard step succeeds on exactly those working sets whose nodes
are all Sequences or Mappings; on success the result is the concatenation,
in working-set order, of each node's fan-out (sequence elements in order,
mapping values in key order); a non-iterable node yields the not-iterable
error naming its kind; and `items[*]` against a 3-element sequence yields
the three elements in sequence order. -/
theorem c4_wildcard_fanout :
    (∀ cur : List Node,
      ((∃ v, resolveStep .stepAll cur = .ok v) ↔ ∀ n ∈ cur, sortable n = true)) ∧
    (∀ cur : List Node, (∀ n ∈ cur, sortable n = true) →
      resolveStep .stepAll cur = .ok (cur.flatMap wildcardExpand)) ∧
    (∀ n : Node, sortable n = false →
      stepOne .stepAll n = .error ("selection [*] requires a sequence or mapping target (got kind=" ++
        toString n.kindNum ++ ")")) ∧
    (∀ a b c : Node,
      resolveTargets (.mapping [(.scalar "items", .sequence [a, b, c])])
        [.stepKey "items", .stepAll] = .ok [a, b, c]) := by
  refine ⟨fun cur => ⟨fun ⟨v, hv⟩ => resolveStepAll_ok_sortable cur v hv,
    fun h => ⟨_, resolveStepAll_expand cur h⟩⟩, resolveStepAll_expand, ?_, fun a b c => rfl⟩
  intro n h
  cases n with
  | scalar s => rfl
  | document cs => rfl
  | mapping ps => simp [sortable] at h
  | sequence es => simp [sortable] at h

/-- C4 witness at concrete inputs. -/
theorem c4_wildcard_fanout_witness :
    resolveStep .stepAll [Node.sequence [Node.scalar "x", Node.scalar "y"]] =
      .ok [Node.scalar "x", Node.scalar "y"] ∧
    stepOne .stepAll (Node.scalar "s") =
      .error "selection [*] requires a sequence or mapping target (got kind=8)" :=
  ⟨c4_wildcard_fanout.2.1 [Node.sequence [Node.scalar "x", Node.scalar "y"]]
    (fun n hn => by
      rcases List.mem_cons.mp hn with rfl | h
      · rfl
      · simp at h),
   c4_wildcard_fanout.2.2.1 (Node.scalar "s") rfl⟩

/-! ### C6, C9, C10 -/

theorem goStrLe_refl (a : String) : goStrLe a a = true := by
  unfold goStrLe
  rw [goStrLt_irrefl]
  rfl

theorem map_snd_withKeys (es : List Node) :
    ((es.map fun e => (firstFieldComparableValue e, e)).map (·.2)) = es := by
  rw [List.map_map]
  exact List.map_id' es

theorem flatPairs_length (ps : List (Node × Node)) : (flatPairs ps).length = 2 * ps.length := by
  induction ps with
  | nil => rfl
  | cons p rest ih =>
    obtain ⟨k, v⟩ := p
    simp [flatPairs, ih]
    omega

theorem sortSeq_elems (es : List Node) :
    elemsOf (sortSequenceByFirstField (.sequence es)) =
      (insertionSortB itemLe (es.map fun e => (firstFieldComparableValue e, e))).map (·.2) := rfl

theorem sortSeq_elems_perm (es : List Node) :
    (elemsOf (sortSequenceByFirstField (.sequence es))).Perm es := by
  rw [sortSeq_elems]
  have h := (insertionSortB_perm itemLe (es.map fun e => (firstFieldComparableValue e, e))).map (·.2)
  rwa [map_snd_withKeys] at h

theorem sortMapping_pairs_perm (cli : CLI) (ps : List (Node × Node)) :
    (pairsOf (sortMappingNodeKeys cli (.mapping ps))).Perm ps :=
  insertionSortB_perm (pairLe cli) ps

/-- C6: mapping sorting orders the key/value pairs ascending by the pair
(rank, key text) — in particular two equal-rank keys end up in
lexicographic key order regardless of input position — and sequence
sorting is stable: two elements with equal comparison keys keep their
relative input order. -/
theorem c6_order_and_stability :
    (∀ (cli : CLI) (ps : List (Node × Node)),
      (pairsOf (sortMappingNodeKeys cli (.mapping ps))).Pairwise fun a b =>
        rankSortType cli a.1.value < rankSortType cli b.1.value ∨
        (rankSortType cli a.1.value = rankSortType cli b.1.value ∧
         goStrLt b.1.value a.1.value = false)) ∧
    (∀ (es : List Node) (x y : Node),
      firstFieldComparableValue x = firstFieldComparableValue y →
      [x, y].Sublist es →
      [x, y].Sublist (elemsOf (sortSequenceByFirstField (.sequence es)))) := by
  constructor
  · intro cli ps
    have h := pairwise_insertionSortB (pairLe cli) (pairLe_total cli) (pairLe_trans cli) ps
    exact h.imp fun hab => (pairLe_iff cli _ _).mp hab
  · intro es x y hkey hsub
    rw [sortSeq_elems]
    have hsub' : [(firstFieldComparableValue x, x), (firstFieldComparableValue y, y)].Sublist
        (es.map fun e => (firstFieldComparableValue e, e)) :=
      hsub.map fun e => (firstFieldComparableValue e, e)
    have hle : itemLe (firstFieldComparableValue x, x) (firstFieldComparableValue y, y) = true := by
      show goStrLe (firstFieldComparableValue x) (firstFieldComparableValue y) = true
      rw [hkey]
      exact goStrLe_refl _
    have := stable_insertionSortB itemLe _ _ _ hle hsub'
    have hm := this.map (·.2)
    exact hm

/-- C6 witness at concrete inputs: two distinct mapping elements with the
same first-field key keep their input order through the sequence sort. -/
theorem c6_order_and_stability_witness :
    [Node.mapping [(Node.scalar "name", Node.scalar "a"), (Node.scalar "p", Node.scalar "1")],
     Node.mapping [(Node.scalar "name", Node.scalar "a"), (Node.scalar "q", Node.scalar "2")]].Sublist
      (elemsOf (sortSequenceByFirstField (.sequence
        [Node.mapping [(Node.scalar "name", Node.scalar "a"), (Node.scalar "p", Node.scalar "1")],
         Node.mapping [(Node.scalar "name", Node.scalar "a"), (Node.scalar "q", Node.scalar "2")]]))) :=
  c6_order_and_stability.2 _ _ _ rfl (List.Sublist.refl _)

/-- C9: sequence sorting permutes only the top-level element order: the
output elements are a permutation of the input elements, every output
element is one of the input elements unchanged (so the key order inside
each mapping element is untouched), and the operation is the identity on
non-sequence nodes. -/
theorem c9_frame :
    (∀ es : List Node, (elemsOf (sortSequenceByFirstField (.sequence es))).Perm es) ∧
    (∀ (es : List Node) (x : Node),
      x ∈ elemsOf (sortSequenceByFirstField (.sequence es)) → x ∈ es) ∧
    (∀ ps : List (Node × Node), sortSequenceByFirstField (.mapping ps) = .mapping ps) ∧
    (∀ s : String, sortSequenceByFirstField (.scalar s) = .scalar s) ∧
    (∀ cs : List Node, sortSequenceByFirstField (.document cs) = .document cs) := by
  refine ⟨sortSeq_elems_perm, fun es x hx => ?_, fun ps => rfl, fun s => rfl, fun cs => rfl⟩
  exact (sortSeq_elems_perm es).mem_iff.mp hx

/-- C9 witness at a concrete input. -/
theorem c9_frame_witness :
    Node.scalar "a" ∈ [Node.scalar "b", Node.scalar "a"] :=
  c9_frame.2.1 [Node.scalar "b", Node.scalar "a"] (Node.scalar "a")
    (List.mem_cons_self _ _)

/-- C10: both sorts preserve the node multiset: mapping sorting rewrites
the pair list as a permutation of the original key/value pairs (keys keep
their paired values; the flat children list keeps its even length), and
sequence sorting rewrites the element list as a permutation of the
original elements. -/
theorem c10_permutation :
    (∀ (cli : CLI) (ps : List (Node × Node)),
      (pairsOf (sortMappingNodeKeys cli (.mapping ps))).Perm ps ∧
      (flatContent (sortMappingNodeKeys cli (.mapping ps))).length =
        (flatContent (.mapping ps)).length ∧
      Even (flatContent (sortMappingNodeKeys cli (.mapping ps))).length) ∧
    (∀ es : List Node, (elemsOf (sortSequenceByFirstField (.sequence es))).Perm es) := by
  refine ⟨fun cli ps => ⟨sortMapping_pairs_perm cli ps, ?_, ?_⟩, sortSeq_elems_perm⟩
  · show (flatPairs (insertionSortB (pairLe cli) ps)).length = (flatPairs ps).length
    rw [flatPairs_length, flatPairs_length, (insertionSortB_perm (pairLe cli) ps).length_eq]
  · show Even (flatPairs (insertionSortB (pairLe cli) ps)).length
    rw [flatPairs_length]
    exact ⟨(insertionSortB (pairLe cli) ps).length, by omega⟩

/-! ### C5 -/

theorem applyTargets_loop (cli : CLI) (path : String) (n : Node) (ts : List (Pos × Node)) :
    applyTargets cli path true n ts =
      (applySorts cli n (ts.filter fun pt => sortable pt.2), none) := by
  induction ts generalizing n with
  | nil => rfl
  | cons pt rest ih =>
    obtain ⟨p, t⟩ := pt
    by_cases hs : sortable t = true
    · unfold applyTargets
      rw [if_pos hs, ih]
      simp [List.filter_cons, hs, applySorts]
    · unfold applyTargets
      rw [if_neg hs, if_pos rfl, ih]
      simp [List.filter_cons, hs]

theorem applyTargets_noloop_ok (cli : CLI) (path : String) (n : Node) (ts : List (Pos × Node))
    (h : ∀ pt ∈ ts, sortable pt.2 = true) :
    applyTargets cli path false n ts = (applySorts cli n ts, none) := by
  induction ts generalizing n with
  | nil => rfl
  | cons pt rest ih =>
    obtain ⟨p, t⟩ := pt
    unfold applyTargets
    rw [if_pos (h (p, t) (List.mem_cons_self _ _)),
      ih (modifyAt (sortFor cli t) n p) fun q hq => h q (List.mem_cons_of_mem _ hq)]
    rfl

theorem applyTargets_noloop_err (cli : CLI) (path : String) (n : Node) (ts : List (Pos × Node))
    (h : ∃ pt ∈ ts, sortable pt.2 = false) :
    (applyTargets cli path false n ts).2.isSome = true := by
  induction ts generalizing n with
  | nil => simp at h
  | cons pt rest ih =>
    obtain ⟨p, t⟩ := pt
    by_cases hs : sortable t = true
    · unfold applyTargets
      rw [if_pos hs]
      refine ih _ ?_
      obtain ⟨q, hq, hqs⟩ := h
      rcases List.mem_cons.mp hq with rfl | hq'
      · rw [hs] at hqs
        cases hqs
      · exact ⟨q, hq', hqs⟩
    · unfold applyTargets
      rw [if_neg hs, if_neg (by simp)]
      rfl

/-- C5: a resolved target that is neither a Mapping nor a Sequence makes
the orchestrator error when the step list has no Wildcard; with a
Wildcard, non-sortable targets are silently skipped (the path still
succeeds and the tree receives exactly the sorts of the sortable
targets); and the first failing path aborts all remaining paths, the tree
keeping the mutations already applied (no rollback). -/
theorem c5_error_policy :
    (∀ (cli : CLI) (doc : Node) (path : String) (steps : List pathStep) (ts : List (Pos × Node)),
      parsePathSteps path = .ok steps →
      resolvePN (startNode doc) steps = .ok ts →
      stepsContainLoop steps = false →
      (∃ pt ∈ ts, sortable pt.2 = false) →
      (processPath cli doc path).2.isSome = true) ∧
    (∀ (cli : CLI) (doc : Node) (path : String) (steps : List pathStep) (ts : List (Pos × Node)),
      parsePathSteps path = .ok steps →
      resolvePN (startNode doc) steps = .ok ts →
      stepsContainLoop steps = true →
      processPath cli doc path =
        (rewrap doc (applySorts cli (startNode doc) (ts.filter fun pt => sortable pt.2)), none)) ∧
    (∀ (cli : CLI) (doc : Node) (pre : List String) (path : String) (rest : List String)
       (d1 d2 : Node) (e : String),
      sortYamlGo cli doc pre = (d1, none) →
      processPath cli d1 path = (d2, some e) →
      sortYamlGo cli doc (pre ++ path :: rest) = (d2, some e)) := by
  refine ⟨?_, ?_, ?_⟩
  · intro cli doc path steps ts hp hr hl hbad
    simp only [processPath, hp, hr, hl]
    exact applyTargets_noloop_err cli path (startNode doc) ts hbad
  · intro cli doc path steps ts hp hr hl
    simp only [processPath, hp, hr, hl]
    rw [applyTargets_loop]
  · intro cli doc pre path rest d1 d2 e h1 h2
    induction pre generalizing doc with
    | nil =>
      unfold sortYamlGo at h1
      injection h1 with ha hb
      subst ha
      rw [List.nil_append]
      unfold sortYamlGo
      rw [h2]
    | cons q qs ih =>
      rcases hq : processPath cli doc q with ⟨d, oe⟩
      cases oe with
      | some e' =>
        exfalso
        unfold sortYamlGo at h1
        rw [hq] at h1
        exact Option.noConfusion (congrArg Prod.snd h1)
      | none =>
        have h1' : sortYamlGo cli d qs = (d1, none) := by
          unfold sortYamlGo at h1
          rwa [hq] at h1
        rw [List.cons_append]
        unfold sortYamlGo
        rw [hq]
        exact ih d h1'

/-- C5 witness at concrete inputs: a scalar target without a wildcard
errors; with a wildcard, scalar targets are skipped; a failing second
path aborts the third while keeping the first path's mutation. -/
theorem c5_error_policy_witness :
    ((processPath ⟨[], "alphanumeric"⟩
        (Node.mapping [(Node.scalar "a", Node.scalar "x")]) "a").2.isSome = true) ∧
    (processPath ⟨[], "alphanumeric"⟩
        (Node.sequence [Node.scalar "x", Node.scalar "y"]) "[*]" =
      (Node.sequence [Node.scalar "x", Node.scalar "y"], none)) ∧
    (sortYamlGo ⟨[], "alphanumeric"⟩
        (Node.mapping [(Node.scalar "b", Node.scalar "2"), (Node.scalar "a", Node.scalar "1")])
        [".", "missing", "."] =
      (Node.mapping [(Node.scalar "a", Node.scalar "1"), (Node.scalar "b", Node.scalar "2")],
       some "failed to navigate to path \"missing\": key \"missing\" not found in mapping")) := by
  refine ⟨?_, ?_, ?_⟩
  · exact c5_error_policy.1 ⟨[], "alphanumeric"⟩
      (Node.mapping [(Node.scalar "a", Node.scalar "x")]) "a" [.stepKey "a"]
      [([0], Node.scalar "x")] rfl rfl rfl ⟨([0], Node.scalar "x"),
        List.mem_cons_self _ _, rfl⟩
  · exact c5_error_policy.2.1 ⟨[], "alphanumeric"⟩
      (Node.sequence [Node.scalar "x", Node.scalar "y"]) "[*]" [.stepAll]
      [([0], Node.scalar "x"), ([1], Node.scalar "y")] rfl rfl rfl
  · exact c5_error_policy.2.2 ⟨[], "alphanumeric"⟩
      (Node.mapping [(Node.scalar "b", Node.scalar "2"), (Node.scalar "a", Node.scalar "1")])
      ["."] "missing" ["."] _ _ _ rfl rfl

/-! ### Position algebra -/

theorem modifyIdx_getElem_self (f : α → α) (i : Nat) (l : List α) :
    (modifyIdx f i l)[i]? = (l[i]?).map f := by
  induction l generalizing i with
  | nil => simp [modifyIdx]
  | cons a as ih =>
    cases i with
    | zero => simp [modifyIdx]
    | succ j => simpa [modifyIdx] using ih j

theorem modifyIdx_getElem_ne (f : α → α) (i j : Nat) (l : List α) (h : i ≠ j) :
    (modifyIdx f i l)[j]? = l[j]? := by
  induction l generalizing i j with
  | nil => simp [modifyIdx]
  | cons a as ih =>
    cases i with
    | zero =>
      cases j with
      | zero => exact absurd rfl h
      | succ j' => simp [modifyIdx]
    | succ i' =>
      cases j with
      | zero => simp [modifyIdx]
      | succ j' => simpa [modifyIdx] using ih i' j' (fun hh => h (hh ▸ rfl))

theorem modifyIdx_length (f : α → α) (i : Nat) (l : List α) :
    (modifyIdx f i l).length = l.length := by
  induction l generalizing i with
  | nil => cases i <;> rfl
  | cons a as ih =>
    cases i with
    | zero => rfl
    | succ j => simpa [modifyIdx] using ih j

theorem modifyIdx_map_fst (g : β → β) (i : Nat) (l : List (α × β)) :
    (modifyIdx (fun pr => (pr.1, g pr.2)) i l).map Prod.fst = l.map Prod.fst := by
  induction l generalizing i with
  | nil => cases i <;> rfl
  | cons a as ih =>
    cases i with
    | zero => simp [modifyIdx]
    | succ j => simpa [modifyIdx] using ih j

theorem modifyIdx_id (f : α → α) (i : Nat) (l : List α) (a : α)
    (hget : l[i]? = some a) (hfix : f a = a) : modifyIdx f i l = l := by
  induction l generalizing i with
  | nil => cases i <;> rfl
  | cons b bs ih =>
    cases i with
    | zero =>
      simp at hget
      simp [modifyIdx, hget ▸ hfix]
    | succ j =>
      simp at hget
      simp [modifyIdx, ih j hget]

theorem childAt_modifyChild_self (g : Node → Node) (i : Nat) (d : Node) :
    childAt (modifyChild g i d) i = (childAt d i).map g := by
  cases d with
  | scalar v => rfl
  | document cs => rfl
  | mapping ps =>
    show ((modifyIdx (fun pr => (pr.1, g pr.2)) i ps)[i]?).map (·.2) = ((ps[i]?).map (·.2)).map g
    rw [modifyIdx_getElem_self]
    cases ps[i]? <;> rfl
  | sequence es =>
    show (modifyIdx g i es)[i]? = (es[i]?).map g
    rw [modifyIdx_getElem_self]

theorem childAt_modifyChild_ne (g : Node → Node) (i j : Nat) (d : Node) (h : i ≠ j) :
    childAt (modifyChild g i d) j = childAt d j := by
  cases d with
  | scalar v => rfl
  | document cs => rfl
  | mapping ps =>
    show ((modifyIdx (fun pr => (pr.1, g pr.2)) i ps)[j]?).map (·.2) = (ps[j]?).map (·.2)
    rw [modifyIdx_getElem_ne _ _ _ _ h]
  | sequence es =>
    show (modifyIdx g i es)[j]? = es[j]?
    exact modifyIdx_getElem_ne _ _ _ _ h

theorem shape_modifyChild (g : Node → Node) (i : Nat) (d : Node) :
    (modifyChild g i d).shape = d.shape := by
  cases d with
  | scalar v => rfl
  | document cs => rfl
  | mapping ps =>
    show NodeShape.mappingS ((modifyIdx (fun pr => (pr.1, g pr.2)) i ps).map fun p => p.1.value) =
      NodeShape.mappingS (ps.map fun p => p.1.value)
    have h := modifyIdx_map_fst g i ps
    have h2 : ((modifyIdx (fun pr => (pr.1, g pr.2)) i ps).map Prod.fst).map Node.value =
        (ps.map Prod.fst).map Node.value := by rw [h]
    rw [List.map_map, List.map_map] at h2
    exact congrArg NodeShape.mappingS h2
  | sequence es =>
    show NodeShape.sequenceS (modifyIdx g i es).length = NodeShape.sequenceS es.length
    rw [modifyIdx_length]

theorem modifyChild_id (g : Node → Node) (i : Nat) (d : Node) (c : Node)
    (hget : childAt d i = some c) (hfix : g c = c) : modifyChild g i d = d := by
  cases d with
  | scalar v => rfl
  | document cs => rfl
  | mapping ps =>
    show Node.mapping (modifyIdx (fun pr => (pr.1, g pr.2)) i ps) = Node.mapping ps
    rcases hp : ps[i]? with _ | pr
    · have : modifyIdx (fun pr => (pr.1, g pr.2)) i ps = ps := by
        have hlen : ps.length ≤ i := by
          by_contra hlt
          rw [List.getElem?_eq_getElem (by omega)] at hp
          cases hp
        clear hget hp
        induction ps generalizing i with
        | nil => cases i <;> rfl
        | cons q qs ih =>
          cases i with
          | zero => simp at hlen
          | succ j =>
            simp at hlen
            simp [modifyIdx, ih j hlen]
      rw [this]
    · have hc : pr.2 = c := by
        have hget' : (ps[i]?).map (·.2) = some c := hget
        rw [hp] at hget'
        simpa using hget'
      refine congrArg Node.mapping (modifyIdx_id _ i ps pr hp ?_)
      rw [hc, hfix, ← hc]
  | sequence es =>
    show Node.sequence (modifyIdx g i es) = Node.sequence es
    have hc : es[i]? = some c := hget
    exact congrArg Node.sequence (modifyIdx_id g i es c hc hfix)

theorem nodeAt_append (d : Node) (p q : Pos) :
    nodeAt d (p ++ q) = (nodeAt d p).bind (fun x => nodeAt x q) := by
  induction p generalizing d with
  | nil => rfl
  | cons i p' ih =>
    show nodeAt d (i :: (p' ++ q)) = _
    cases hc : childAt d i with
    | none => simp [nodeAt, hc]
    | some c => simp [nodeAt, hc, ih c]

theorem nodeAt_modifyAt_pre (f : Node → Node) (d : Node) (q r : Pos) :
    nodeAt (modifyAt f d (q ++ r)) q = (nodeAt d q).map (fun x => modifyAt f x r) := by
  induction q generalizing d with
  | nil => rfl
  | cons i q' ih =>
    show nodeAt (modifyChild (fun c => modifyAt f c (q' ++ r)) i d) (i :: q') = _
    unfold nodeAt
    rw [childAt_modifyChild_self]
    cases hc : childAt d i with
    | none => rfl
    | some c => simpa using ih c

theorem nodeAt_modifyAt_off (f : Node → Node) (d : Node) (c : Pos) (i j : Nat)
    (r1 r2 : Pos) (hij : i ≠ j) :
    nodeAt (modifyAt f d (c ++ i :: r1)) (c ++ j :: r2) = nodeAt d (c ++ j :: r2) := by
  induction c generalizing d with
  | nil =>
    show nodeAt (modifyChild (fun x => modifyAt f x r1) i d) (j :: r2) = nodeAt d (j :: r2)
    unfold nodeAt
    rw [childAt_modifyChild_ne _ _ _ _ hij]
  | cons a c' ih =>
    show nodeAt (modifyChild (fun x => modifyAt f x (c' ++ i :: r1)) a d)
      (a :: (c' ++ j :: r2)) = nodeAt d (a :: (c' ++ j :: r2))
    unfold nodeAt
    rw [childAt_modifyChild_self]
    cases hc : childAt d a with
    | none => rfl
    | some x => simpa using ih x

theorem pos_cases (p q : Pos) :
    (∃ r, p = q ++ r) ∨ (∃ s, q = p ++ s) ∨
    (∃ c i j r1 r2, i ≠ j ∧ p = c ++ i :: r1 ∧ q = c ++ j :: r2) := by
  induction p generalizing q with
  | nil => exact .inr (.inl ⟨q, rfl⟩)
  | cons i p' ih =>
    cases q with
    | nil => exact .inl ⟨i :: p', rfl⟩
    | cons j q' =>
      by_cases hij : i = j
      · subst hij
        rcases ih q' with ⟨r, hr⟩ | ⟨s, hs⟩ | ⟨c, a, b, r1, r2, hab, h1, h2⟩
        · exact .inl ⟨r, by rw [hr]; rfl⟩
        · exact .inr (.inl ⟨s, by rw [hs]; rfl⟩)
        · exact .inr (.inr ⟨i :: c, a, b, r1, r2, hab, by rw [h1]; rfl, by rw [h2]; rfl⟩)
      · exact .inr (.inr ⟨[], i, j, p', q', hij, rfl, rfl⟩)

theorem nodeAt_modifyAt_incomp (f : Node → Node) (d : Node) (p r : Pos)
    (hne : p ≠ r) (hlen : p.length = r.length) :
    nodeAt (modifyAt f d p) r = nodeAt d r := by
  rcases pos_cases p r with ⟨s, hs⟩ | ⟨s, hs⟩ | ⟨c, i, j, r1, r2, hij, h1, h2⟩
  · subst hs
    have hs0 : s = [] := by
      rw [List.length_append] at hlen
      have : s.length = 0 := by omega
      exact List.length_eq_zero.mp this
    subst hs0
    exact absurd (List.append_nil r) hne
  · subst hs
    have hs0 : s = [] := by
      rw [List.length_append] at hlen
      have : s.length = 0 := by omega
      exact List.length_eq_zero.mp this
    subst hs0
    exact absurd (List.append_nil p).symm hne
  · subst h1
    subst h2
    exact nodeAt_modifyAt_off f d c i j r1 r2 hij

theorem shapeAt_modifyAt_short (f : Node → Node) (d : Node) (p q : Pos)
    (h : q.length < p.length) :
    shapeAt (modifyAt f d p) q = shapeAt d q := by
  rcases pos_cases p q with ⟨r, hr⟩ | ⟨s, hs⟩ | ⟨c, i, j, r1, r2, hij, h1, h2⟩
  · subst hr
    cases r with
    | nil =>
      rw [List.append_nil] at h
      omega
    | cons i r' =>
      unfold shapeAt
      rw [nodeAt_modifyAt_pre f d q (i :: r')]
      cases hx : nodeAt d q with
      | none => rfl
      | some x =>
        show some ((modifyAt f x (i :: r')).shape) = some x.shape
        exact congrArg some (shape_modifyChild _ i x)
  · subst hs
    rw [List.length_append] at h
    omega
  · subst h1
    subst h2
    unfold shapeAt
    rw [nodeAt_modifyAt_off f d c i j r1 r2 hij]

theorem modifyAt_id (f : Node → Node) (d : Node) (p : Pos) (x : Node)
    (hx : nodeAt d p = some x) (hfix : f x = x) : modifyAt f d p = d := by
  induction p generalizing d with
  | nil =>
    have hd : d = x := by
      have : some d = some x := hx
      injection this
    subst hd
    exact hfix
  | cons i p' ih =>
    unfold nodeAt at hx
    cases hc : childAt d i with
    | none =>
      rw [hc] at hx
      cases hx
    | some c =>
      rw [hc] at hx
      exact modifyChild_id _ i d c hc (ih c hx)

theorem nodeAt_modifyAt_self (f : Node → Node) (d : Node) (p : Pos) (x : Node)
    (hx : nodeAt d p = some x) :
    nodeAt (modifyAt f d p) p = some (f x) := by
  have h := nodeAt_modifyAt_pre f d p []
  rw [List.append_nil] at h
  rw [h, hx]
  rfl

theorem shapeAgree_applySorts (cli : CLI) (d : Node) (ts : List (Pos × Node)) (nlim : Nat)
    (hlen : ∀ pn ∈ ts, pn.1.length = nlim) :
    ShapeAgreeBelow nlim d (applySorts cli d ts) := by
  induction ts generalizing d with
  | nil => intro q hq; rfl
  | cons pt rest ih =>
    obtain ⟨p, t⟩ := pt
    intro q hq
    show shapeAt (applySorts cli (modifyAt (sortFor cli t) d p) rest) q = shapeAt d q
    rw [ih (modifyAt (sortFor cli t) d p) (fun pn hm => hlen pn (List.mem_cons_of_mem _ hm)) q hq]
    exact shapeAt_modifyAt_short _ _ _ _ (by rw [hlen (p, t) (List.mem_cons_self _ _)]; exact hq)

theorem nodeAt_applySorts_untouched (cli : CLI) (d : Node) (ts : List (Pos × Node)) (r : Pos)
    (h : ∀ pn ∈ ts, pn.1 ≠ r ∧ pn.1.length = r.length) :
    nodeAt (applySorts cli d ts) r = nodeAt d r := by
  induction ts generalizing d with
  | nil => rfl
  | cons pt rest ih =>
    obtain ⟨p, t⟩ := pt
    show nodeAt (applySorts cli (modifyAt (sortFor cli t) d p) rest) r = nodeAt d r
    rw [ih (modifyAt (sortFor cli t) d p) (fun pn hm => h pn (List.mem_cons_of_mem _ hm))]
    exact nodeAt_modifyAt_incomp _ _ _ _ (h (p, t) (List.mem_cons_self _ _)).1
      (h (p, t) (List.mem_cons_self _ _)).2

theorem nodeAt_applySorts (cli : CLI) (d : Node) (ts : List (Pos × Node)) (k : Nat)
    (hlen : ∀ pn ∈ ts, pn.1.length = k)
    (hnd : (ts.map Prod.fst).Nodup)
    (hv : ValidWS d ts) :
    ∀ pn ∈ ts, nodeAt (applySorts cli d ts) pn.1 = some (sortFor cli pn.2 pn.2) := by
  induction ts generalizing d with
  | nil => simp
  | cons pt rest ih =>
    obtain ⟨p, t⟩ := pt
    intro pn hpn
    rw [List.map_cons] at hnd
    have hnds := List.nodup_cons.mp hnd
    rcases List.mem_cons.mp hpn with rfl | hmem
    · show nodeAt (applySorts cli (modifyAt (sortFor cli t) d p) rest) p = _
      rw [nodeAt_applySorts_untouched cli _ rest p ?_]
      · exact nodeAt_modifyAt_self _ d p t (hv (p, t) (List.mem_cons_self _ _))
      · intro qn hq
        constructor
        · intro he
          apply hnds.1
          show p ∈ List.map Prod.fst rest
          rw [← he]
          exact List.mem_map_of_mem Prod.fst hq
        · rw [hlen qn (List.mem_cons_of_mem _ hq), hlen (p, t) (List.mem_cons_self _ _)]
    · show nodeAt (applySorts cli (modifyAt (sortFor cli t) d p) rest) pn.1 = _
      refine ih (modifyAt (sortFor cli t) d p)
        (fun qn h => hlen qn (List.mem_cons_of_mem _ h)) hnds.2 ?_ pn hmem
      intro qn hq
      rw [nodeAt_modifyAt_incomp _ _ p qn.1 ?_ ?_]
      · exact hv qn (List.mem_cons_of_mem _ hq)
      · intro he
        apply hnds.1
        show p ∈ List.map Prod.fst rest
        rw [he]
        exact List.mem_map_of_mem Prod.fst hq
      · rw [hlen (p, t) (List.mem_cons_self _ _), hlen qn (List.mem_cons_of_mem _ hq)]

/-! ### Resolver invariants -/

theorem nodeAt_singleton (x : Node) (i : Nat) : nodeAt x [i] = childAt x i := by
  unfold nodeAt
  cases childAt x i <;> rfl

theorem findKeyIdx_shape (key : String) (ps : List (Node × Node)) :
    findKeyIdx key ps = findIdxKeyS key (ps.map fun p => p.1.value) := by
  induction ps with
  | nil => rfl
  | cons q qs ih =>
    obtain ⟨k, v⟩ := q
    show (if k.value = key then some 0 else (findKeyIdx key qs).map (· + 1)) = _
    rw [ih]
    rfl

theorem shapeKindNum_eq (n : Node) : shapeKindNum n.shape = n.kindNum := by
  cases n <;> rfl

theorem stepIdxOne_shape (st : pathStep) (n : Node) :
    stepIdxOne st n = stepIdxOneS st n.shape := by
  cases st with
  | stepKey key =>
    cases n with
    | mapping ps =>
      show (match findKeyIdx key ps with
        | some i => Except.ok [i]
        | none => Except.error _) = _
      rw [findKeyIdx_shape]
      rfl
    | scalar v => rfl
    | sequence es => rfl
    | document cs => rfl
  | stepIndex idx => cases n <;> rfl
  | stepAll =>
    cases n with
    | mapping ps =>
      show Except.ok (List.range ps.length) = Except.ok (List.range (ps.map fun p => p.1.value).length)
      rw [List.length_map]
    | scalar v => rfl
    | sequence es => rfl
    | document cs => rfl

theorem findKeyIdx_lt (key : String) (ps : List (Node × Node)) (i : Nat)
    (h : findKeyIdx key ps = some i) : i < ps.length := by
  induction ps generalizing i with
  | nil => cases h
  | cons q qs ih =>
    obtain ⟨k, v⟩ := q
    by_cases hk : k.value = key
    · have : some 0 = some i := by
        rw [← h]
        show _ = (if k.value = key then some 0 else (findKeyIdx key qs).map (· + 1))
        rw [if_pos hk]
      injection this with h0
      subst h0
      simp
    · have h' : (findKeyIdx key qs).map (· + 1) = some i := by
        rw [← h]
        show _ = (if k.value = key then some 0 else (findKeyIdx key qs).map (· + 1))
        rw [if_neg hk]
      rcases hq : findKeyIdx key qs with _ | j
      · rw [hq] at h'
        cases h'
      · rw [hq] at h'
        injection h' with h1
        subst h1
        have := ih j hq
        simp
        omega

theorem stepIdxOne_valid (st : pathStep) (n : Node) (is : List Nat)
    (h : stepIdxOne st n = .ok is) : ∀ i ∈ is, ∃ c, childAt n i = some c := by
  intro i hi
  cases st with
  | stepKey key =>
    cases n with
    | mapping ps =>
      simp only [stepIdxOne] at h
      rcases hf : findKeyIdx key ps with _ | j
      · rw [hf] at h
        cases h
      · rw [hf] at h
        injection h with h1
        subst h1
        rcases List.mem_singleton.mp hi with rfl
        have hlt := findKeyIdx_lt key ps i hf
        refine ⟨(ps.get ⟨i, hlt⟩).2, ?_⟩
        show (ps[i]?).map (·.2) = _
        rw [List.getElem?_eq_getElem hlt]
        rfl
    | scalar v => cases h
    | sequence es => cases h
    | document cs => cases h
  | stepIndex idx =>
    cases n with
    | sequence es =>
      simp only [stepIdxOne] at h
      by_cases hb : idx < 0 ∨ (es.length : Int) ≤ idx
      · rw [if_pos hb] at h
        cases h
      · rw [if_neg hb] at h
        injection h with h1
        subst h1
        rcases List.mem_singleton.mp hi with rfl
        push_neg at hb
        have hlt : idx.toNat < es.length := by omega
        refine ⟨es.get ⟨idx.toNat, hlt⟩, ?_⟩
        show es[idx.toNat]? = _
        rw [List.getElem?_eq_getElem hlt]
        rfl
    | scalar v => cases h
    | mapping ps => cases h
    | document cs => cases h
  | stepAll =>
    cases n with
    | sequence es =>
      injection h with h1
      subst h1
      have hlt := List.mem_range.mp hi
      refine ⟨es.get ⟨i, hlt⟩, ?_⟩
      show es[i]? = _
      rw [List.getElem?_eq_getElem hlt]
      rfl
    | mapping ps =>
      injection h with h1
      subst h1
      have hlt := List.mem_range.mp hi
      refine ⟨(ps.get ⟨i, hlt⟩).2, ?_⟩
      show (ps[i]?).map (·.2) = _
      rw [List.getElem?_eq_getElem hlt]
      rfl
    | scalar v => cases h
    | document cs => cases h

theorem stepIdxOne_nodup (st : pathStep) (n : Node) (is : List Nat)
    (h : stepIdxOne st n = .ok is) : is.Nodup := by
  cases st with
  | stepKey key =>
    cases n with
    | mapping ps =>
      simp only [stepIdxOne] at h
      rcases hf : findKeyIdx key ps with _ | j
      · rw [hf] at h
        cases h
      · rw [hf] at h
        injection h with h1
        subst h1
        simp
    | scalar v => cases h
    | sequence es => cases h
    | document cs => cases h
  | stepIndex idx =>
    cases n with
    | sequence es =>
      simp only [stepIdxOne] at h
      by_cases hb : idx < 0 ∨ (es.length : Int) ≤ idx
      · rw [if_pos hb] at h
        cases h
      · rw [if_neg hb] at h
        injection h with h1
        subst h1
        simp
    | scalar v => cases h
    | mapping ps => cases h
    | document cs => cases h
  | stepAll =>
    cases n with
    | sequence es =>
      injection h with h1
      subst h1
      exact List.nodup_range _
    | mapping ps =>
      injection h with h1
      subst h1
      exact List.nodup_range _
    | scalar v => cases h
    | document cs => cases h

theorem resolveStepPN_cons_inv (st : pathStep) (p : Pos) (n : Node)
    (rest ws' : List (Pos × Node))
    (h : resolveStepPN st ((p, n) :: rest) = .ok ws') :
    ∃ is rest', stepIdxOne st n = .ok is ∧ resolveStepPN st rest = .ok rest' ∧
      ws' = (is.map fun i => (p ++ [i], (childAt n i).getD (.scalar ""))) ++ rest' := by
  simp only [resolveStepPN] at h
  rcases hs : stepIdxOne st n with e | is <;> rw [hs] at h
  · cases h
  · rcases hr : resolveStepPN st rest with e | rest' <;> rw [hr] at h
    · simp [Except.map] at h
    · refine ⟨is, rest', rfl, rfl, ?_⟩
      simp only [Except.map] at h
      injection h with h1
      exact h1.symm

theorem resolveStepPN_valid (st : pathStep) (root : Node) :
    ∀ ws ws', resolveStepPN st ws = .ok ws' → ValidWS root ws → ValidWS root ws' := by
  intro ws
  induction ws with
  | nil =>
    intro ws' h hv
    injection h with h1
    subst h1
    intro pn hpn
    simp at hpn
  | cons pn0 rest ih =>
    intro ws' h hv
    obtain ⟨p, n⟩ := pn0
    obtain ⟨is, rest', hs, hr, rfl⟩ := resolveStepPN_cons_inv _ _ _ _ _ h
    intro qn hq
    rcases List.mem_append.mp hq with hq' | hq'
    · obtain ⟨i, hi, rfl⟩ := List.mem_map.mp hq'
      obtain ⟨c, hc⟩ := stepIdxOne_valid st n is hs i hi
      show nodeAt root (p ++ [i]) = some ((childAt n i).getD (.scalar ""))
      rw [nodeAt_append, hv (p, n) (List.mem_cons_self _ _)]
      show nodeAt n [i] = _
      rw [nodeAt_singleton, hc]
      rfl
    · exact ih rest' hr (fun qn h' => hv qn (List.mem_cons_of_mem _ h')) qn hq'

theorem resolveStepPN_posok (st : pathStep) (k : Nat) :
    ∀ ws ws', resolveStepPN st ws = .ok ws' → PosOK k ws → PosOK (k + 1) ws' := by
  intro ws
  induction ws with
  | nil =>
    intro ws' h hk
    injection h with h1
    subst h1
    intro pn hpn
    simp at hpn
  | cons pn0 rest ih =>
    intro ws' h hk
    obtain ⟨p, n⟩ := pn0
    obtain ⟨is, rest', hs, hr, rfl⟩ := resolveStepPN_cons_inv _ _ _ _ _ h
    intro qn hq
    rcases List.mem_append.mp hq with hq' | hq'
    · obtain ⟨i, hi, rfl⟩ := List.mem_map.mp hq'
      show (p ++ [i]).length = k + 1
      rw [List.length_append, hk (p, n) (List.mem_cons_self _ _)]
      rfl
    · exact ih rest' hr (fun qn h' => hk qn (List.mem_cons_of_mem _ h')) qn hq'

theorem resolveStepPN_fst_mem (st : pathStep) :
    ∀ ws ws', resolveStepPN st ws = .ok ws' →
      ∀ qn ∈ ws', ∃ pn ∈ ws, ∃ i, qn.1 = pn.1 ++ [i] := by
  intro ws
  induction ws with
  | nil =>
    intro ws' h qn hq
    injection h with h1
    subst h1
    simp at hq
  | cons pn0 rest ih =>
    intro ws' h qn hq
    obtain ⟨p, n⟩ := pn0
    obtain ⟨is, rest', hs, hr, rfl⟩ := resolveStepPN_cons_inv _ _ _ _ _ h
    rcases List.mem_append.mp hq with hq' | hq'
    · obtain ⟨i, hi, rfl⟩ := List.mem_map.mp hq'
      exact ⟨(p, n), List.mem_cons_self _ _, i, rfl⟩
    · obtain ⟨pn, hpn, i, hqi⟩ := ih rest' hr qn hq'
      exact ⟨pn, List.mem_cons_of_mem _ hpn, i, hqi⟩

theorem map_fst_block (p : Pos) (g : Nat → Node) (is : List Nat) :
    ((is.map fun i => (p ++ [i], g i)).map Prod.fst) = is.map (fun i => p ++ [i]) := by
  rw [List.map_map]
  rfl

theorem resolveStepPN_nodup (st : pathStep) (k : Nat) :
    ∀ ws ws', resolveStepPN st ws = .ok ws' → PosOK k ws →
      (ws.map Prod.fst).Nodup → (ws'.map Prod.fst).Nodup := by
  intro ws
  induction ws with
  | nil =>
    intro ws' h hk hnd
    injection h with h1
    subst h1
    simp
  | cons pn0 rest ih =>
    intro ws' h hk hnd
    obtain ⟨p, n⟩ := pn0
    obtain ⟨is, rest', hs, hr, rfl⟩ := resolveStepPN_cons_inv _ _ _ _ _ h
    rw [List.map_cons] at hnd
    have hnds := List.nodup_cons.mp hnd
    rw [List.map_append, map_fst_block]
    rw [List.nodup_append]
    refine ⟨?_, ih rest' hr (fun qn h' => hk qn (List.mem_cons_of_mem _ h')) hnds.2, ?_⟩
    · refine (stepIdxOne_nodup st n is hs).map ?_
      intro i j hij
      have := List.append_cancel_left hij
      injection this
    · intro q hq1 hq2
      obtain ⟨i, hi, rfl⟩ := List.mem_map.mp hq1
      obtain ⟨qn, hqn, hmem⟩ := List.mem_map.mp hq2
      obtain ⟨pn, hpn, j, hqj⟩ := resolveStepPN_fst_mem st rest rest' hr qn hqn
      rw [hqj] at hmem
      have hlen : p.length = pn.1.length := by
        rw [hk (p, n) (List.mem_cons_self _ _), hk pn (List.mem_cons_of_mem _ hpn)]
      have heq := List.append_inj hmem hlen.symm
      apply hnds.1
      show p ∈ List.map Prod.fst rest
      rw [← heq.1]
      exact List.mem_map_of_mem Prod.fst hpn

theorem resolveStepsPN_valid (root : Node) :
    ∀ (steps : List pathStep) (ws ts : List (Pos × Node)),
      resolveStepsPN ws steps = .ok ts → ValidWS root ws → ValidWS root ts := by
  intro steps
  induction steps with
  | nil =>
    intro ws ts h hv
    injection h with h1
    subst h1
    exact hv
  | cons st rest ih =>
    intro ws ts h hv
    simp only [resolveStepsPN] at h
    rcases h0 : resolveStepPN st ws with e | next <;> rw [h0] at h
    · cases h
    · exact ih next ts h (resolveStepPN_valid st root ws next h0 hv)

theorem resolveStepsPN_posok :
    ∀ (steps : List pathStep) (k : Nat) (ws ts : List (Pos × Node)),
      resolveStepsPN ws steps = .ok ts → PosOK k ws → PosOK (k + steps.length) ts := by
  intro steps
  induction steps with
  | nil =>
    intro k ws ts h hk
    injection h with h1
    subst h1
    simpa using hk
  | cons st rest ih =>
    intro k ws ts h hk
    simp only [resolveStepsPN] at h
    rcases h0 : resolveStepPN st ws with e | next <;> rw [h0] at h
    · cases h
    · have := ih (k + 1) next ts h (resolveStepPN_posok st k ws next h0 hk)
      intro pn hpn
      rw [this pn hpn, List.length_cons]
      omega

theorem resolveStepsPN_nodup :
    ∀ (steps : List pathStep) (k : Nat) (ws ts : List (Pos × Node)),
      resolveStepsPN ws steps = .ok ts → PosOK k ws →
      (ws.map Prod.fst).Nodup → (ts.map Prod.fst).Nodup := by
  intro steps
  induction steps with
  | nil =>
    intro k ws ts h hk hnd
    injection h with h1
    subst h1
    exact hnd
  | cons st rest ih =>
    intro k ws ts h hk hnd
    simp only [resolveStepsPN] at h
    rcases h0 : resolveStepPN st ws with e | next <;> rw [h0] at h
    · cases h
    · exact ih (k + 1) next ts h (resolveStepPN_posok st k ws next h0 hk)
        (resolveStepPN_nodup st k ws next h0 hk hnd)

/-! ### Resolution depends only on shapes above the modified depth -/

theorem resolveStepPN_congr (st : pathStep) (d0 d1 : Node) :
    ∀ (ws0 ws1 out0 : List (Pos × Node)),
      ws0.map Prod.fst = ws1.map Prod.fst →
      ValidWS d0 ws0 → ValidWS d1 ws1 →
      (∀ pn ∈ ws0, shapeAt d1 pn.1 = shapeAt d0 pn.1) →
      resolveStepPN st ws0 = .ok out0 →
      ∃ out1, resolveStepPN st ws1 = .ok out1 ∧ out0.map Prod.fst = out1.map Prod.fst := by
  intro ws0
  induction ws0 with
  | nil =>
    intro ws1 out0 hfst hv0 hv1 hsh h
    have hws1 : ws1 = [] := by
      cases ws1 with
      | nil => rfl
      | cons a b => cases hfst
    subst hws1
    injection h with h1
    subst h1
    exact ⟨[], rfl, rfl⟩
  | cons pn0 rest0 ih =>
    intro ws1 out0 hfst hv0 hv1 hsh h
    obtain ⟨p, n0⟩ := pn0
    cases ws1 with
    | nil => cases hfst
    | cons pn1 rest1 =>
      obtain ⟨p1, n1⟩ := pn1
      rw [List.map_cons, List.map_cons] at hfst
      injection hfst with hp hrest
      obtain ⟨is, rest0', hs, hr, rfl⟩ := resolveStepPN_cons_inv _ _ _ _ _ h
      have hshape : n1.shape = n0.shape := by
        have h0 : shapeAt d0 p = some n0.shape := by
          unfold shapeAt
          rw [hv0 (p, n0) (List.mem_cons_self _ _)]
          rfl
        have h1' : shapeAt d1 p1 = some n1.shape := by
          unfold shapeAt
          rw [hv1 (p1, n1) (List.mem_cons_self _ _)]
          rfl
        have hx := hsh (p, n0) (List.mem_cons_self _ _)
        rw [h0] at hx
        rw [show (p, n0).1 = p1 from hp] at hx
        rw [h1'] at hx
        injection hx
      have hs1 : stepIdxOne st n1 = .ok is := by
        rw [stepIdxOne_shape, hshape, ← stepIdxOne_shape, hs]
      obtain ⟨out1', hout1, hfsts⟩ := ih rest1 rest0' hrest
        (fun qn hq => hv0 qn (List.mem_cons_of_mem _ hq))
        (fun qn hq => hv1 qn (List.mem_cons_of_mem _ hq))
        (fun qn hq => hsh qn (List.mem_cons_of_mem _ hq)) hr
      refine ⟨(is.map fun i => (p1 ++ [i], (childAt n1 i).getD (.scalar ""))) ++ out1', ?_, ?_⟩
      · simp only [resolveStepPN, hs1, hout1]
        rfl
      · rw [List.map_append, List.map_append, map_fst_block, map_fst_block, hfsts,
          show p = p1 from hp]

theorem resolveStepsPN_congr (d0 d1 : Node) (nlim : Nat)
    (hsh : ShapeAgreeBelow nlim d0 d1) :
    ∀ (steps : List pathStep) (k : Nat) (ws0 ws1 out0 : List (Pos × Node)),
      k + steps.length ≤ nlim →
      ws0.map Prod.fst = ws1.map Prod.fst →
      PosOK k ws0 →
      ValidWS d0 ws0 → ValidWS d1 ws1 →
      resolveStepsPN ws0 steps = .ok out0 →
      ∃ out1, resolveStepsPN ws1 steps = .ok out1 ∧ out0.map Prod.fst = out1.map Prod.fst := by
  intro steps
  induction steps with
  | nil =>
    intro k ws0 ws1 out0 hk hfst hp0 hv0 hv1 h
    injection h with h1
    subst h1
    exact ⟨ws1, rfl, hfst⟩
  | cons st rest ih =>
    intro k ws0 ws1 out0 hk hfst hp0 hv0 hv1 h
    simp only [resolveStepsPN] at h
    rcases h0 : resolveStepPN st ws0 with e | mid0 <;> rw [h0] at h
    · cases h
    · have hklt : k < nlim := by
        rw [List.length_cons] at hk
        omega
      obtain ⟨mid1, hmid1, hfstm⟩ := resolveStepPN_congr st d0 d1 ws0 ws1 mid0 hfst hv0 hv1
        (fun pn hpn => hsh pn.1 (by rw [hp0 pn hpn]; exact hklt)) h0
      obtain ⟨out1, hout1, hfsto⟩ := ih (k + 1) mid0 mid1 out0
        (by rw [List.length_cons] at hk; omega) hfstm
        (resolveStepPN_posok st k ws0 mid0 h0 hp0)
        (resolveStepPN_valid st d0 ws0 mid0 h0 hv0)
        (resolveStepPN_valid st d1 ws1 mid1 hmid1 hv1) h
      refine ⟨out1, ?_, hfsto⟩
      simp only [resolveStepsPN, hmid1]
      exact hout1

/-! ### Sort idempotence and kind preservation -/

theorem sortMappingNodeKeys_idem (cli : CLI) (x : Node) :
    sortMappingNodeKeys cli (sortMappingNodeKeys cli x) = sortMappingNodeKeys cli x := by
  cases x with
  | mapping ps =>
    show Node.mapping (insertionSortB (pairLe cli) (insertionSortB (pairLe cli) ps)) = _
    rw [insertionSortB_idem _ (pairLe_total cli) (pairLe_trans cli)]
    rfl
  | scalar v => rfl
  | sequence es => rfl
  | document cs => rfl

theorem seq_key_invariant (es : List Node) :
    ∀ pr ∈ insertionSortB itemLe (es.map fun e => (firstFieldComparableValue e, e)),
      pr.1 = firstFieldComparableValue pr.2 := by
  intro pr hpr
  have hm : pr ∈ es.map (fun e => (firstFieldComparableValue e, e)) :=
    (insertionSortB_perm _ _).mem_iff.mp hpr
  obtain ⟨e, he, rfl⟩ := List.mem_map.mp hm
  rfl

theorem map_pair_id (l : List (String × Node))
    (h : ∀ pr ∈ l, pr.1 = firstFieldComparableValue pr.2) :
    l.map (fun pr => (firstFieldComparableValue pr.2, pr.2)) = l := by
  induction l with
  | nil => rfl
  | cons pr rest ih =>
    rw [List.map_cons, ih fun q hq => h q (List.mem_cons_of_mem _ hq)]
    have hp := h pr (List.mem_cons_self _ _)
    have : (firstFieldComparableValue pr.2, pr.2) = pr := by
      rw [← hp]
    rw [this]

theorem sortSequenceByFirstField_idem (x : Node) :
    sortSequenceByFirstField (sortSequenceByFirstField x) = sortSequenceByFirstField x := by
  cases x with
  | sequence es =>
    have hitems : (((insertionSortB itemLe
        (es.map fun e => (firstFieldComparableValue e, e))).map (·.2)).map
          (fun e => (firstFieldComparableValue e, e))) =
        insertionSortB itemLe (es.map fun e => (firstFieldComparableValue e, e)) := by
      rw [List.map_map]
      exact map_pair_id _ (seq_key_invariant es)
    show Node.sequence ((insertionSortB itemLe
        ((((insertionSortB itemLe (es.map fun e => (firstFieldComparableValue e, e))).map
          (·.2)).map (fun e => (firstFieldComparableValue e, e))))).map (·.2)) = _
    rw [hitems, insertionSortB_idem itemLe itemLe_total itemLe_trans]
    rfl
  | scalar v => rfl
  | mapping ps => rfl
  | document cs => rfl

theorem sortFor_fix (cli : CLI) (t : Node) :
    sortFor cli (sortFor cli t t) (sortFor cli t t) = sortFor cli t t := by
  cases t with
  | mapping ps =>
    show sortMappingNodeKeys cli (sortMappingNodeKeys cli (Node.mapping ps)) =
      sortMappingNodeKeys cli (Node.mapping ps)
    exact sortMappingNodeKeys_idem cli _
  | sequence es =>
    show sortSequenceByFirstField (sortSequenceByFirstField (Node.sequence es)) =
      sortSequenceByFirstField (Node.sequence es)
    exact sortSequenceByFirstField_idem _
  | scalar v => rfl
  | document cs => rfl

theorem sortable_sortFor (cli : CLI) (t : Node) :
    sortable (sortFor cli t t) = sortable t := by
  cases t <;> rfl

theorem sortFor_kindNum (cli : CLI) (t y : Node) :
    (sortFor cli t y).kindNum = y.kindNum := by
  cases t <;> cases y <;> rfl

theorem modifyChild_kindNum (g : Node → Node) (i : Nat) (d : Node) :
    (modifyChild g i d).kindNum = d.kindNum := by
  cases d <;> rfl

theorem modifyAt_kindNum (f : Node → Node) (hf : ∀ y, (f y).kindNum = y.kindNum)
    (d : Node) (p : Pos) : (modifyAt f d p).kindNum = d.kindNum := by
  cases p with
  | nil => exact hf d
  | cons i p' => exact modifyChild_kindNum _ i d

theorem applySorts_kindNum (cli : CLI) :
    ∀ (ts : List (Pos × Node)) (d : Node), (applySorts cli d ts).kindNum = d.kindNum := by
  intro ts
  induction ts with
  | nil => intro d; rfl
  | cons pt rest ih =>
    intro d
    obtain ⟨p, t⟩ := pt
    show (applySorts cli (modifyAt (sortFor cli t) d p) rest).kindNum = d.kindNum
    rw [ih (modifyAt (sortFor cli t) d p)]
    exact modifyAt_kindNum _ (fun y => sortFor_kindNum cli t y) d p

theorem startNode_of_kind_ne (n : Node) (h : n.kindNum ≠ 1) : startNode n = n := by
  cases n with
  | document cs => exact absurd rfl h
  | scalar v => rfl
  | mapping ps => rfl
  | sequence es => rfl

theorem nodup_fst_inj (ts : List (Pos × Node)) (hnd : (ts.map Prod.fst).Nodup)
    (pn qn : Pos × Node) (hp : pn ∈ ts) (hq : qn ∈ ts) (h : pn.1 = qn.1) : pn = qn :=
  List.inj_on_of_nodup_map hnd hp hq h

theorem applyTargets_noloop_none (cli : CLI) (path : String) (n : Node)
    (ts : List (Pos × Node)) (h : (applyTargets cli path false n ts).2 = none) :
    ∀ pt ∈ ts, sortable pt.2 = true := by
  by_contra hbad
  push_neg at hbad
  obtain ⟨pt, hpt, hs⟩ := hbad
  have : (applyTargets cli path false n ts).2.isSome = true :=
    applyTargets_noloop_err cli path n ts ⟨pt, hpt, by simpa using hs⟩
  rw [h] at this
  cases this

theorem applyTargets_fixpoint (cli : CLI) (path : String) (looping : Bool) :
    ∀ (ts' : List (Pos × Node)) (d1 : Node),
      ValidWS d1 ts' →
      (∀ pn ∈ ts', sortable pn.2 = true → sortFor cli pn.2 pn.2 = pn.2) →
      (looping = false → ∀ pn ∈ ts', sortable pn.2 = true) →
      applyTargets cli path looping d1 ts' = (d1, none) := by
  intro ts'
  induction ts' with
  | nil => intro d1 _ _ _; rfl
  | cons pt rest ih =>
    intro d1 hv hfix hskip
    obtain ⟨p, t⟩ := pt
    by_cases hs : sortable t = true
    · unfold applyTargets
      rw [if_pos hs]
      have hm : modifyAt (sortFor cli t) d1 p = d1 :=
        modifyAt_id _ _ _ t (hv (p, t) (List.mem_cons_self _ _))
          (hfix (p, t) (List.mem_cons_self _ _) hs)
      rw [hm]
      exact ih d1 (fun qn hq => hv qn (List.mem_cons_of_mem _ hq))
        (fun qn hq => hfix qn (List.mem_cons_of_mem _ hq))
        (fun hl qn hq => hskip hl qn (List.mem_cons_of_mem _ hq))
    · have hl : looping = true := by
        cases hlp : looping
        · exact absurd (hskip hlp (p, t) (List.mem_cons_self _ _)) hs
        · rfl
      subst hl
      unfold applyTargets
      rw [if_neg hs, if_pos rfl]
      exact ih d1 (fun qn hq => hv qn (List.mem_cons_of_mem _ hq))
        (fun qn hq => hfix qn (List.mem_cons_of_mem _ hq))
        (fun hl => by cases hl)

/-! ### C7: assembly -/

theorem stepIdxOne_document_err (st : pathStep) (cs : List Node) :
    ∃ e, stepIdxOne st (Node.document cs) = .error e := by
  cases st <;> exact ⟨_, rfl⟩

theorem processPath_success_inv (cli : CLI) (doc : Node) (path : String) (d1 : Node)
    (h : processPath cli doc path = (d1, none)) :
    ∃ steps ts n1,
      parsePathSteps path = .ok steps ∧
      resolvePN (startNode doc) steps = .ok ts ∧
      applyTargets cli path (stepsContainLoop steps) (startNode doc) ts = (n1, none) ∧
      d1 = rewrap doc n1 := by
  unfold processPath at h
  rcases hp : parsePathSteps path with e | steps <;> rw [hp] at h <;> dsimp only at h
  · injection h with h1 h2
    cases h2
  · rcases hr : resolvePN (startNode doc) steps with e | ts <;> rw [hr] at h <;> dsimp only at h
    · injection h with h1 h2
      cases h2
    · rcases hat : applyTargets cli path (stepsContainLoop steps) (startNode doc) ts with ⟨n1, oe⟩
      rw [hat] at h
      injection h with h1 h2
      cases oe with
      | some e' => cases h2
      | none => exact ⟨steps, ts, n1, rfl, hr, hat, h1.symm⟩

theorem rewrap_of_kind_ne (n new : Node) (h : n.kindNum ≠ 1) : rewrap n new = new := by
  cases n with
  | document cs => exact absurd rfl h
  | scalar v => rfl
  | mapping ps => rfl
  | sequence es => rfl

theorem processPath_document_nil (cli : CLI) (path : String) (d1 : Node)
    (h : processPath cli (Node.document []) path = (d1, none)) : False := by
  obtain ⟨steps, ts, n1, hp, hr, hat, hd⟩ := processPath_success_inv cli (Node.document []) path d1 h
  cases hsteps : steps with
  | nil =>
    rw [hsteps] at hr hat
    have h0 : resolvePN (startNode (Node.document [])) ([] : List pathStep) =
        .ok [([], Node.document [])] := rfl
    rw [h0] at hr
    injection hr with h1
    rw [← h1] at hat
    have h2 : applyTargets cli path (stepsContainLoop ([] : List pathStep))
        (startNode (Node.document [])) [([], Node.document [])] =
        (Node.document [], some (targetErrMsg path (Node.document []))) := rfl
    rw [h2] at hat
    injection hat with ha hb
    cases hb
  | cons st rest =>
    rw [hsteps] at hr
    obtain ⟨e, he⟩ := stepIdxOne_document_err st []
    have h0 : resolvePN (startNode (Node.document [])) (st :: rest) = .error e := by
      show resolveStepsPN [([], Node.document [])] (st :: rest) = .error e
      simp only [resolveStepsPN, resolveStepPN, he]
    rw [h0] at hr
    cases hr

theorem processPath_idem (cli : CLI) (doc : Node) (path : String) (d1 : Node)
    (h : processPath cli doc path = (d1, none)) :
    processPath cli d1 path = (d1, none) := by
  by_cases hdoc : doc = Node.document []
  · rw [hdoc] at h
    exact absurd h (fun hh => processPath_document_nil cli path d1 hh)
  obtain ⟨steps, ts, n1, hp, hr, hat, rfl⟩ := processPath_success_inv cli doc path d1 h
  have hv0single : ValidWS (startNode doc) [([], startNode doc)] := by
    intro pn hpn
    rcases List.mem_singleton.mp hpn with rfl
    rfl
  have hp0single : PosOK 0 [([], startNode doc)] := by
    intro pn hpn
    rcases List.mem_singleton.mp hpn with rfl
    rfl
  have hv : ValidWS (startNode doc) ts :=
    resolveStepsPN_valid (startNode doc) steps [([], startNode doc)] ts hr hv0single
  have hposok : PosOK steps.length ts := by
    have := resolveStepsPN_posok steps 0 [([], startNode doc)] ts hr hp0single
    intro pn hpn
    rw [this pn hpn]
    omega
  have hnd : (ts.map Prod.fst).Nodup :=
    resolveStepsPN_nodup steps 0 [([], startNode doc)] ts hr hp0single (by simp)
  -- the sortable targets actually modified
  have hsubl : (ts.filter fun pt => sortable pt.2).Sublist ts := List.filter_sublist _
  have hvS : ValidWS (startNode doc) (ts.filter fun pt => sortable pt.2) :=
    fun pn hpn => hv pn (hsubl.subset hpn)
  have hposokS : ∀ pn ∈ (ts.filter fun pt => sortable pt.2), pn.1.length = steps.length :=
    fun pn hpn => hposok pn (hsubl.subset hpn)
  have hndS : ((ts.filter fun pt => sortable pt.2).map Prod.fst).Nodup :=
    List.Nodup.sublist (hsubl.map Prod.fst) hnd
  -- n1 is the fold of the sorts over the sortable targets
  have hn1 : n1 = applySorts cli (startNode doc) (ts.filter fun pt => sortable pt.2) := by
    cases hl : stepsContainLoop steps
    · rw [hl] at hat
      have hall : ∀ pt ∈ ts, sortable pt.2 = true :=
        applyTargets_noloop_none cli path (startNode doc) ts (by rw [hat])
      have happ := applyTargets_noloop_ok cli path (startNode doc) ts hall
      rw [happ] at hat
      injection hat with h1 h2
      rw [List.filter_eq_self.mpr hall]
      exact h1.symm
    · rw [hl] at hat
      rw [applyTargets_loop] at hat
      injection hat with h1 h2
      exact h1.symm
  -- shapes below the target depth are untouched
  have hsh : ShapeAgreeBelow steps.length (startNode doc) n1 := by
    rw [hn1]
    exact shapeAgree_applySorts cli (startNode doc) _ steps.length hposokS
  -- the document wrapper: the start node of the rewrapped tree is n1
  have hkind : n1.kindNum = (startNode doc).kindNum := by
    rw [hn1]
    exact applySorts_kindNum cli _ _
  have hstart1 : startNode (rewrap doc n1) = n1 := by
    cases doc with
    | document cs =>
      cases cs with
      | nil => exact absurd rfl hdoc
      | cons c r => rfl
    | scalar v => exact startNode_of_kind_ne n1 (by rw [hkind]; simp [startNode, Node.kindNum])
    | mapping ps => exact startNode_of_kind_ne n1 (by rw [hkind]; simp [startNode, Node.kindNum])
    | sequence es => exact startNode_of_kind_ne n1 (by rw [hkind]; simp [startNode, Node.kindNum])
  have hrw : rewrap (rewrap doc n1) n1 = rewrap doc n1 := by
    cases doc with
    | document cs =>
      cases cs with
      | nil => exact absurd rfl hdoc
      | cons c r => rfl
    | scalar v =>
      show rewrap n1 n1 = n1
      exact rewrap_of_kind_ne n1 n1 (by rw [hkind]; simp [startNode, Node.kindNum])
    | mapping ps =>
      show rewrap n1 n1 = n1
      exact rewrap_of_kind_ne n1 n1 (by rw [hkind]; simp [startNode, Node.kindNum])
    | sequence es =>
      show rewrap n1 n1 = n1
      exact rewrap_of_kind_ne n1 n1 (by rw [hkind]; simp [startNode, Node.kindNum])
  -- second resolution returns the same positions
  obtain ⟨ts', hr', hfst'⟩ := resolveStepsPN_congr (startNode doc) n1 steps.length hsh
    steps 0 [([], startNode doc)] [([], n1)] ts (by omega) rfl hp0single hv0single
    (by intro pn hpn; rcases List.mem_singleton.mp hpn with rfl; rfl) hr
  have hv' : ValidWS n1 ts' := resolveStepsPN_valid n1 steps [([], n1)] ts' hr'
    (by intro pn hpn; rcases List.mem_singleton.mp hpn with rfl; rfl)
  -- each second-pass target is the sorted (or untouched) first-pass target
  have hkey : ∀ qn ∈ ts', ∃ pn ∈ ts, qn.1 = pn.1 ∧
      (sortable pn.2 = true → qn.2 = sortFor cli pn.2 pn.2) ∧
      (sortable pn.2 = false → qn.2 = pn.2) := by
    intro qn hqn
    have hq1 : qn.1 ∈ ts.map Prod.fst := by
      rw [hfst']
      exact List.mem_map_of_mem Prod.fst hqn
    obtain ⟨pn, hpn, hpq⟩ := List.mem_map.mp hq1
    refine ⟨pn, hpn, hpq.symm, ?_, ?_⟩
    · intro hs
      have hmem : pn ∈ ts.filter fun pt => sortable pt.2 := List.mem_filter.mpr ⟨hpn, hs⟩
      have hsort := nodeAt_applySorts cli (startNode doc) _ steps.length hposokS hndS hvS pn hmem
      rw [← hn1] at hsort
      have hval := hv' qn hqn
      rw [hpq] at hsort
      rw [hval] at hsort
      injection hsort
    · intro hs
      have huntouched : nodeAt (applySorts cli (startNode doc)
          (ts.filter fun pt => sortable pt.2)) qn.1 = nodeAt (startNode doc) qn.1 := by
        refine nodeAt_applySorts_untouched cli (startNode doc) _ qn.1 ?_
        intro rn hrn
        constructor
        · intro he
          have hrt : rn ∈ ts := hsubl.subset hrn
          have : rn = pn := by
            refine nodup_fst_inj ts hnd rn pn hrt hpn ?_
            rw [he, ← hpq]
          rw [this] at hrn
          have := (List.mem_filter.mp hrn).2
          rw [hs] at this
          cases this
        · rw [hposokS rn hrn, ← hpq, hposok pn hpn]
      rw [← hn1] at huntouched
      have hval := hv' qn hqn
      rw [hval] at huntouched
      have hvp := hv pn hpn
      rw [← hpq] at huntouched
      rw [hvp] at huntouched
      injection huntouched
  -- the second pass is a no-op
  have hfix : ∀ qn ∈ ts', sortable qn.2 = true → sortFor cli qn.2 qn.2 = qn.2 := by
    intro qn hqn hs
    obtain ⟨pn, hpn, hpq, htrue, hfalse⟩ := hkey qn hqn
    cases hps : sortable pn.2
    · rw [hfalse hps] at hs
      rw [hps] at hs
      cases hs
    · rw [htrue hps]
      exact sortFor_fix cli pn.2
  have hskip : stepsContainLoop steps = false → ∀ qn ∈ ts', sortable qn.2 = true := by
    intro hl qn hqn
    have hall : ∀ pt ∈ ts, sortable pt.2 = true := by
      rw [hl] at hat
      exact applyTargets_noloop_none cli path (startNode doc) ts (by rw [hat])
    obtain ⟨pn, hpn, hpq, htrue, hfalse⟩ := hkey qn hqn
    rw [htrue (hall pn hpn)]
    rw [sortable_sortFor]
    exact hall pn hpn
  have hfinal := applyTargets_fixpoint cli path (stepsContainLoop steps) ts' n1 hv' hfix hskip
  -- assemble the second processPath run
  show processPath cli (rewrap doc n1) path = (rewrap doc n1, none)
  unfold processPath
  rw [hp]
  rw [hstart1]
  show (match resolvePN n1 steps with
    | .error e => (rewrap doc n1, some ("failed to navigate to path \"" ++ path ++ "\": " ++ e))
    | .ok targets =>
      let r := applyTargets cli path (stepsContainLoop steps) n1 targets
      (rewrap (rewrap doc n1) r.1, r.2)) = (rewrap doc n1, none)
  rw [show resolvePN n1 steps = .ok ts' from hr']
  show (rewrap (rewrap doc n1) (applyTargets cli path (stepsContainLoop steps) n1 ts').1,
    (applyTargets cli path (stepsContainLoop steps) n1 ts').2) = (rewrap doc n1, none)
  rw [hfinal, hrw]

theorem sortYamlGo_single (cli : CLI) (doc : Node) (p : String) :
    sortYamlGo cli doc [p] = processPath cli doc p := by
  unfold sortYamlGo
  rcases hq : processPath cli doc p with ⟨d, oe⟩
  cases oe with
  | some e => rfl
  | none => rfl

theorem applyTargets_sortType (l1 l2 : List String) (st : String) (path : String)
    (looping : Bool) :
    ∀ (ts : List (Pos × Node)) (n : Node),
      applyTargets ⟨l1, st⟩ path looping n ts = applyTargets ⟨l2, st⟩ path looping n ts := by
  intro ts
  induction ts with
  | nil => intro n; rfl
  | cons pt rest ih =>
    intro n
    obtain ⟨p, t⟩ := pt
    unfold applyTargets
    by_cases hs : sortable t = true
    · rw [if_pos hs, if_pos hs, show sortFor (⟨l1, st⟩ : CLI) t = sortFor ⟨l2, st⟩ t from rfl, ih]
    · rw [if_neg hs, if_neg hs]
      by_cases hl : looping = true
      · rw [if_pos hl, if_pos hl, ih]
      · rw [if_neg hl, if_neg hl]

theorem processPath_sortType (l1 l2 : List String) (st : String) (doc : Node) (p : String) :
    processPath ⟨l1, st⟩ doc p = processPath ⟨l2, st⟩ doc p := by
  unfold processPath
  rcases parsePathSteps p with e | steps
  · rfl
  · dsimp only
    rcases resolvePN (startNode doc) steps with e | ts
    · rfl
    · dsimp only
      rw [applyTargets_sortType]

/-- C7: for every path and sort mode, a successful application is
idempotent — running the same single-path sort again on its own output
returns the output unchanged, and a run with the path repeated twice
produces the same tree as the single run. -/
theorem c7_idempotent :
    ∀ (sortTy p : String) (doc d1 : Node),
      SortYaml ⟨[p], sortTy⟩ doc = (d1, none) →
      SortYaml ⟨[p], sortTy⟩ d1 = (d1, none) ∧
      SortYaml ⟨[p, p], sortTy⟩ doc = (d1, none) := by
  intro st p doc d1 h
  have h0 : sortYamlGo ⟨[p], st⟩ doc [p] = (d1, none) := h
  rw [sortYamlGo_single] at h0
  have h2 := processPath_idem ⟨[p], st⟩ doc p d1 h0
  refine ⟨?_, ?_⟩
  · show sortYamlGo ⟨[p], st⟩ d1 [p] = (d1, none)
    rw [sortYamlGo_single]
    exact h2
  · show sortYamlGo ⟨[p, p], st⟩ doc [p, p] = (d1, none)
    unfold sortYamlGo
    rw [show processPath ⟨[p, p], st⟩ doc p = (d1, none) from
      (processPath_sortType [p, p] [p] st doc p).trans h0]
    show sortYamlGo ⟨[p, p], st⟩ d1 [p] = (d1, none)
    rw [sortYamlGo_single]
    exact (processPath_sortType [p, p] [p] st d1 p).trans h2

/-- C7 witness at a concrete input: sorting a two-key mapping by `.` once
is a fixed point of a second application, and `.` twice equals `.` once. -/
theorem c7_idempotent_witness :
    SortYaml ⟨["."], "alphanumeric"⟩
      (Node.document [Node.mapping
        [(Node.scalar "a", Node.scalar "1"), (Node.scalar "b", Node.scalar "2")]]) =
      (Node.document [Node.mapping
        [(Node.scalar "a", Node.scalar "1"), (Node.scalar "b", Node.scalar "2")]], none) ∧
    SortYaml ⟨[".", "."], "alphanumeric"⟩
      (Node.document [Node.mapping
        [(Node.scalar "b", Node.scalar "2"), (Node.scalar "a", Node.scalar "1")]]) =
      (Node.document [Node.mapping
        [(Node.scalar "a", Node.scalar "1"), (Node.scalar "b", Node.scalar "2")]], none) :=
  c7_idempotent "alphanumeric" "."
    (Node.document [Node.mapping
      [(Node.scalar "b", Node.scalar "2"), (Node.scalar "a", Node.scalar "1")]])
    (Node.document [Node.mapping
      [(Node.scalar "a", Node.scalar "1"), (Node.scalar "b", Node.scalar "2")]]) rfl
